import Mathlib

/-!
# Verification of the docTR OCR CLI wrapper

Shallow embedding of the repository's two native components and its CLI
driver:

* `src/path_resolver.py` — `resolve_input_path`, built on `pathlib.Path`
  (POSIX flavour).  `pathlib` parsing collapses redundant separators and
  `.` segments but keeps `..`; `Path.resolve()` is modelled lexically,
  i.e. for a symlink-free filesystem (the spec explicitly allows either).
* `src/main.py` — `extract_text_from_doctr_export` and `main`.  The
  nested docTR export is embedded as a JSON-like value `JValue`, with the
  Python dynamic semantics (`dict.get` with default, iteration, truthiness,
  `str.join`) made explicit; operations that would raise in Python return
  `Except.error`.
* The Python standard library `json.dump(…, ensure_ascii=False, indent=2)`
  and `json.load` are external collaborators; they are modelled from their
  documented semantics (`dumps` / `loads` below).
-/

/-! ## Path model (pathlib, POSIX flavour) -/

/-- The root of a POSIX `pathlib` path: relative, absolute (`/`), or the
POSIX special double-slash root (`//`). -/
inductive Root where
  | rel : Root
  | abs : Root
  | abs2 : Root
deriving DecidableEq

/-- A parsed `pathlib.PurePosixPath`: a root and the list of path segments
(no empty segments, no `.` segments — `pathlib` drops these when parsing). -/
structure PPath where
  root : Root
  segs : List String
deriving DecidableEq

/-- A path segment is kept by `pathlib` parsing iff it is nonempty and not
`"."` (`..` is kept). -/
def keepSeg (s : String) : Bool :=
  s != "" && s != "."

/-- Split a character list on `/`, yielding the raw components (empty
components included, as Python's `str.split("/")`). -/
def splitSlashAux : List Char → List Char → List String
  | [], acc => [String.mk acc.reverse]
  | c :: cs, acc =>
    if c = '/' then String.mk acc.reverse :: splitSlashAux cs []
    else splitSlashAux cs (c :: acc)

/-- Raw `/`-components of a string. -/
def splitSlash (s : String) : List String :=
  splitSlashAux s.data []

/-- Number of leading `/` characters. -/
def leadSlashes : List Char → Nat
  | [] => 0
  | c :: cs => if c = '/' then leadSlashes cs + 1 else 0

/-- The root of `PurePosixPath(s)`: exactly two leading slashes give the
special `//` root; one or three-or-more give `/`. -/
def parseRoot (s : String) : Root :=
  match leadSlashes s.data with
  | 0 => .rel
  | 2 => .abs2
  | _ => .abs

/-- The segments of `PurePosixPath(s)`: split on `/`, dropping empty and
`.` components. -/
def parseSegs (s : String) : List String :=
  (splitSlash s).filter keepSeg

/-- `pathlib.Path(s)` on POSIX: parse the string into root and segments. -/
def pathOfString (s : String) : PPath :=
  ⟨parseRoot s, parseSegs s⟩

/-- `str()` of the root. -/
def rootStr : Root → String
  | .rel => ""
  | .abs => "/"
  | .abs2 => "//"

/-- Join strings with a separator, as Python's `sep.join(xs)`. -/
def joinStrs (sep : String) : List String → String
  | [] => ""
  | [s] => s
  | s :: rest => s ++ sep ++ joinStrs sep rest

/-- `str(p)` for a `PurePosixPath`: root then `/`-joined segments; the empty
relative path displays as `"."`. -/
def ppStr (p : PPath) : String :=
  if p.root = .rel && p.segs.isEmpty then "."
  else rootStr p.root ++ joinStrs "/" p.segs

/-- `PurePath.is_absolute()` on POSIX: the path has a root. -/
def isAbsolute (p : PPath) : Bool :=
  p.root != .rel

/-- `base / p` (`PurePath.__truediv__`): if `p` has a root it wins,
otherwise append its segments to `base`. -/
def pathJoin (base p : PPath) : PPath :=
  if isAbsolute p then p else ⟨base.root, base.segs ++ p.segs⟩

/-- One step of lexical `..`-collapsing: `..` pops the last accumulated
segment (a no-op at the root), anything else is appended. -/
def resolveStep (acc : List String) (seg : String) : List String :=
  if seg = ".." then acc.dropLast else acc ++ [seg]

/-- Collapse all `..` segments of an already-rooted segment list. -/
def resolveSegs (segs : List String) : List String :=
  segs.foldl resolveStep []

/-- `Path.resolve(strict=False)` on an absolute path, for a symlink-free
filesystem: collapse `..` lexically, clamping at the root.  (With symlinks
present CPython follows them; the spec allows the lexical behaviour.) -/
def pathResolve (p : PPath) : PPath :=
  ⟨p.root, resolveSegs p.segs⟩

/-- `resolve_input_path` from `src/path_resolver.py`:
`p = Path(user_path); if not p.is_absolute(): p = (Path.cwd() / p).resolve();
return p`.  The process working directory is passed explicitly (`cwd`). -/
def resolve_input_path (cwd : PPath) (user_path : String) : PPath :=
  let p := pathOfString user_path
  if !isAbsolute p then pathResolve (pathJoin cwd p) else p

/-- The working directory returned by `Path.cwd()` is an absolute path with
plain segments (no empty, `.` or `..` components). -/
def wfCwd (cwd : PPath) : Prop :=
  cwd.root = .abs ∧ ∀ s ∈ cwd.segs, s ≠ "" ∧ s ≠ "." ∧ s ≠ ".."

/-! ### Claim-side normalization (from the spec's words)

The spec's `normalize(p)` collapses `.`/`..` segments and redundant
separators.  These definitions follow the claim wording, to be compared
with the code-side `resolve_input_path`. -/

/-- One step of the spec's normalization: drop empty and `.` components,
pop on `..`, keep the rest. -/
def normStep (acc : List String) (seg : String) : List String :=
  if seg = "" ∨ seg = "." then acc
  else if seg = ".." then acc.dropLast
  else acc ++ [seg]

/-- Spec-side segment normalization over the raw `/`-split components. -/
def normalizeSegsSpec (segs : List String) : List String :=
  segs.foldl normStep []

/-- Spec-side `normalize(p)` for a path string: keep the root, normalize
all components (`.`/`..` collapsed, redundant separators dropped). -/
def normalizeSpec (s : String) : PPath :=
  ⟨parseRoot s, normalizeSegsSpec (splitSlash s)⟩

/-- Spec-side `normalize(d / p)`: join the working directory with the raw
components of `p`, then normalize. -/
def normalizeJoinSpec (cwd : PPath) (s : String) : PPath :=
  ⟨cwd.root, normalizeSegsSpec (cwd.segs ++ splitSlash s)⟩


/-! ## JSON-like values

The docTR export is a nested Python structure of dicts, lists, strings and
numbers.  `JValue` embeds such values; Python operations that can raise
(`.get` on a non-dict, iteration of a non-iterable, `str.join` over
non-strings) return `Except.error` carrying the exception name. -/

/-- A Python value as found in a docTR export / JSON document.  A number is
carried as its literal token: the flattening logic never reads numeric
values, only their truthiness, which the token determines. -/
inductive JValue where
  | null : JValue
  | bool (b : Bool) : JValue
  | num (lit : String) : JValue
  | str (s : String) : JValue
  | arr (items : List JValue) : JValue
  | obj (fields : List (String × JValue)) : JValue

/-- First binding of key `k` in a field list (Python dicts have unique
keys; lookup returns the stored value). -/
def lookupField (fields : List (String × JValue)) (k : String) : Option JValue :=
  match fields with
  | [] => none
  | (k2, v) :: rest => if k2 = k then some v else lookupField rest k

/-- `x.get(k, d)`: the dict method with default; `AttributeError` when `x`
is not a dict. -/
def jget (v : JValue) (k : String) (d : JValue) : Except String JValue :=
  match v with
  | .obj fields => .ok ((lookupField fields k).getD d)
  | _ => .error "AttributeError"

/-- `for x in v`: the iterates of a Python value — list elements, the
characters of a string (as one-character strings), the keys of a dict;
`TypeError` otherwise. -/
def pyIter (v : JValue) : Except String (List JValue) :=
  match v with
  | .arr xs => .ok xs
  | .str s => .ok (s.data.map (fun c => .str (String.mk [c])))
  | .obj fields => .ok (fields.map (fun kv => .str kv.1))
  | _ => .error "TypeError"

/-- A numeric literal denotes zero iff every digit of its mantissa (the
part before any exponent marker) is `0`. -/
def numLitZero (lit : String) : Bool :=
  ((lit.data.takeWhile (fun c => c != 'e' && c != 'E')).filter Char.isDigit).all
    (fun c => c == '0')

/-- Python truthiness: `None`, `False`, zero, and empty collections are
falsy. -/
def pyTruthy : JValue → Bool
  | .null => false
  | .bool b => b
  | .num lit => !numLitZero lit
  | .str s => s != ""
  | .arr xs => !xs.isEmpty
  | .obj fields => !fields.isEmpty

/-- Require a `str`; `TypeError` otherwise (as `str.join` demands). -/
def strOfJ : JValue → Except String String
  | .str s => .ok s
  | _ => .error "TypeError"

/-- Require a list of `str`s. -/
def strsOfJ : List JValue → Except String (List String)
  | [] => .ok []
  | v :: rest => do
    let s ← strOfJ v
    let ss ← strsOfJ rest
    return s :: ss

/-- `sep.join(vals)`: `TypeError` unless every element is a `str`. -/
def pyJoin (sep : String) (vals : List JValue) : Except String String := do
  let ss ← strsOfJ vals
  return joinStrs sep ss

/-! ### `extract_text_from_doctr_export` (src/main.py) -/

/-- The word loop: `value = w.get("value", ""); if value: words.append(value)`
over each word of a line. -/
def collectWords : List JValue → Except String (List JValue)
  | [] => .ok []
  | w :: rest => do
    let v ← jget w "value" (.str "")
    let tail ← collectWords rest
    return if pyTruthy v then v :: tail else tail

/-- The line body: `line.get("words", [])`, collect word values, and when
the collected list is nonempty contribute `" ".join(words)`. -/
def lineEntries (line : JValue) : Except String (List String) := do
  let ws ← jget line "words" (.arr [])
  let items ← pyIter ws
  let vals ← collectWords items
  if vals.isEmpty then return []
  else do
    let t ← pyJoin " " vals
    return [t]

/-- Concatenate the entries contributed by each element in order,
propagating the first error. -/
def concatEntries (f : JValue → Except String (List String)) :
    List JValue → Except String (List String)
  | [] => .ok []
  | x :: rest => do
    let e ← f x
    let es ← concatEntries f rest
    return e ++ es

/-- The block body: `block.get("lines", [])` and every line's entries. -/
def blockEntries (block : JValue) : Except String (List String) := do
  let ls ← jget block "lines" (.arr [])
  let items ← pyIter ls
  concatEntries lineEntries items

/-- The page body: `page.get("blocks", [])` and every block's entries. -/
def pageEntries (page : JValue) : Except String (List String) := do
  let bs ← jget page "blocks" (.arr [])
  let items ← pyIter bs
  concatEntries blockEntries items

/-- The page loop: each page's entries, and after every page that is not
the last (`page_index != len(pages) - 1`) one empty string. -/
def pagesEntries : List JValue → Except String (List String)
  | [] => .ok []
  | [p] => pageEntries p
  | p :: rest => do
    let e ← pageEntries p
    let es ← pagesEntries rest
    return e ++ [""] ++ es

/-- `output_lines` of `extract_text_from_doctr_export`, before the final
join and strip. -/
def outputLines (exported : JValue) : Except String (List String) := do
  let pages ← jget exported "pages" (.arr [])
  let items ← pyIter pages
  pagesEntries items

/-- Characters removed by Python `str.strip()` (the ASCII ones; no other
whitespace occurs in this development). -/
def pyIsSpace (c : Char) : Bool :=
  c == ' ' || c == '\t' || c == '\n' || c == '\r' || c == '\x0b' || c == '\x0c'

/-- Python `str.strip()`: drop leading and trailing whitespace. -/
def pyStrip (s : String) : String :=
  String.mk (((s.data.dropWhile pyIsSpace).reverse.dropWhile pyIsSpace).reverse)

/-- `extract_text_from_doctr_export` from `src/main.py`:
`"\n".join(output_lines).strip()`, with any Python exception surfaced as
`Except.error`. -/
def extract_text_from_doctr_export (exported : JValue) : Except String String := do
  let ls ← outputLines exported
  return pyStrip (joinStrs "\n" ls)

/-- `len(exported.get("pages", []))`, for well-formed exports. -/
def numPages (exported : JValue) : Nat :=
  match exported with
  | .obj fields =>
    match lookupField fields "pages" with
    | some (.arr ps) => ps.length
    | _ => 0
  | _ => 0

/-! ### Well-formed export structures

The claims quantify over "OCR export structures": dicts nested as
`pages → blocks → lines → words`, where every key may be absent and a
word's `value`, when present, is a string. -/

/-- A word: a dict whose `value`, if present, is a string. -/
def wfWord : JValue → Bool
  | .obj fields =>
    match lookupField fields "value" with
    | none => true
    | some (.str _) => true
    | some _ => false
  | _ => false

/-- A line: a dict whose `words`, if present, is a list of words. -/
def wfLine : JValue → Bool
  | .obj fields =>
    match lookupField fields "words" with
    | none => true
    | some (.arr ws) => ws.all wfWord
    | some _ => false
  | _ => false

/-- A block: a dict whose `lines`, if present, is a list of lines. -/
def wfBlock : JValue → Bool
  | .obj fields =>
    match lookupField fields "lines" with
    | none => true
    | some (.arr ls) => ls.all wfLine
    | some _ => false
  | _ => false

/-- A page: a dict whose `blocks`, if present, is a list of blocks. -/
def wfPage : JValue → Bool
  | .obj fields =>
    match lookupField fields "blocks" with
    | none => true
    | some (.arr bs) => bs.all wfBlock
    | some _ => false
  | _ => false

/-- An export: a dict whose `pages`, if present, is a list of pages. -/
def wfExport : JValue → Bool
  | .obj fields =>
    match lookupField fields "pages" with
    | none => true
    | some (.arr ps) => ps.all wfPage
    | some _ => false
  | _ => false

/-! ### Claim-side reference flattening (from the claim's words)

`flattenSpecC1` follows claim C1 verbatim: collect non-empty word values
per line, join with one space, keep only lines with at least one collected
value, join everything with a newline, strip.  `flattenSpecC1Sep` is the
same with the page-separator rule the source also implements (one empty
entry after every page but the last). -/

/-- The `k` children of `v`: the list stored under `k`, or empty when the
key (or the list) is absent. -/
def getChildren (v : JValue) (k : String) : List JValue :=
  match v with
  | .obj fields =>
    match lookupField fields k with
    | some (.arr xs) => xs
    | _ => []
  | _ => []

/-- The collected value of a word: its `value` field when present,
a string and nonempty; skipped otherwise. -/
def wordValC1 (w : JValue) : Option String :=
  match w with
  | .obj fields =>
    match lookupField fields "value" with
    | some (.str s) => if s = "" then none else some s
    | _ => none
  | _ => none

/-- The output entries of one line: the space-joined collected values, when
at least one value was collected. -/
def lineC1 (line : JValue) : List String :=
  let vals := (getChildren line "words").filterMap wordValC1
  if vals.isEmpty then [] else [joinStrs " " vals]

/-- The output entries of one block. -/
def blockC1 (block : JValue) : List String :=
  (getChildren block "lines").flatMap lineC1

/-- The output entries of one page. -/
def pageC1 (page : JValue) : List String :=
  (getChildren page "blocks").flatMap blockC1

/-- Reference flattening exactly as claim C1 words it (no page
separators). -/
def flattenSpecC1 (v : JValue) : String :=
  pyStrip (joinStrs "\n" ((getChildren v "pages").flatMap pageC1))

/-- Concatenate the per-page entry lists with one empty entry between
consecutive pages. -/
def sepConcat : List (List String) → List String
  | [] => []
  | [x] => x
  | x :: rest => x ++ [""] ++ sepConcat rest

/-- Reference flattening amended with the page-separator rule. -/
def flattenSpecC1Sep (v : JValue) : String :=
  pyStrip (joinStrs "\n" (sepConcat ((getChildren v "pages").map pageC1)))

/-- A one-page export fragment holding a single word `t`. -/
def onePage (t : String) : JValue :=
  .obj [("blocks", .arr [.obj [("lines",
    .arr [.obj [("words", .arr [.obj [("value", .str t)]])]])]])]

/-- A two-page export: page one reads `A`, page two reads `C`. -/
def twoPageExport : JValue :=
  .obj [("pages", .arr [onePage "A", onePage "C"])]

/-- An export with keys missing at every level: a page without blocks, a
block without lines, a line without words, a word without a value, a word
with an empty value. -/
def sparseExport : JValue :=
  .obj [("pages", .arr [
    .obj [],
    .obj [("blocks", .arr [
      .obj [],
      .obj [("lines", .arr [
        .obj [],
        .obj [("words", .arr [
          .obj [],
          .obj [("value", .str "")],
          .obj [("value", .str "X")]])]])]])]])]

/-! ## The CLI driver (`main`, src/main.py)

`main` is modelled as a pure function of the parsed arguments and an
environment bundling everything external: the working directory, the
filesystem checks, the docTR pipeline (document loading, model
construction, inference and export collapsed into one oracle) and the JSON
output write (directory creation, open and `json.dump` collapsed into one
oracle); an `Except.error` carries the message of the raised exception.
The observable effects — exit code, the streams, whether the OCR pipeline
was entered, which output paths were touched — are returned in a record. -/

/-- Command-line arguments after `argparse`, with the declared defaults. -/
structure Args where
  imagePath : String
  jsonOut : String
  detArch : String
  recoArch : String
  noText : Bool

/-- The external collaborators of `main`. -/
structure Env where
  cwd : PPath
  pathExists : PPath → Bool
  pathIsFile : PPath → Bool
  ocr : String → String → PPath → Except String JValue
  writeJson : PPath → JValue → Except String Unit

/-- `PurePath.parent`: drop the last segment (the anchor is its own
parent). -/
def pathParent (p : PPath) : PPath :=
  if p.segs.isEmpty then p else ⟨p.root, p.segs.dropLast⟩

/-- Observable outcome of one `main` run: exit code, stderr and stdout
lines, whether the try block (the OCR pipeline) was entered, the parent
directories passed to `mkdir`, and the JSON paths opened for writing. -/
structure RunResult where
  exitCode : Nat
  stderr : List String
  stdout : List String
  ocrInvoked : Bool
  mkdirCalls : List PPath
  jsonWrites : List PPath

/-- The tail of the try block after a successful export: optionally print
the flattened text (`if not args.no_text`), return 0; a raised exception
ends the run with code 1. -/
def printStep (args : Args) (exported : JValue) (md jw : List PPath) :
    RunResult :=
  if !args.noText then
    match extract_text_from_doctr_export exported with
    | .error e => ⟨1, ["ERROR: OCR failed: " ++ e], [], true, md, jw⟩
    | .ok text => ⟨0, [], [text], true, md, jw⟩
  else ⟨0, [], [], true, md, jw⟩

/-- `main` from `src/main.py`: resolve the image path, validate it (exit 2
on failure, before any OCR work), run the OCR pipeline, optionally write
the JSON export, optionally print the text; any exception inside the try
block is caught, printed as `ERROR: OCR failed: ...` and mapped to exit 1. -/
def mainRun (args : Args) (env : Env) : RunResult :=
  let img_path := resolve_input_path env.cwd args.imagePath
  if !env.pathExists img_path then
    ⟨2, ["ERROR: File not found: " ++ ppStr img_path], [], false, [], []⟩
  else if !env.pathIsFile img_path then
    ⟨2, ["ERROR: Not a file: " ++ ppStr img_path], [], false, [], []⟩
  else
    match env.ocr args.detArch args.recoArch img_path with
    | .error e =>
      ⟨1, ["ERROR: OCR failed: " ++ e], [], true, [], []⟩
    | .ok exported =>
      if args.jsonOut != "" then
        let out_path := resolve_input_path env.cwd args.jsonOut
        match env.writeJson out_path exported with
        | .error e =>
          ⟨1, ["ERROR: OCR failed: " ++ e], [], true,
            [pathParent out_path], [out_path]⟩
        | .ok _ => printStep args exported [pathParent out_path] [out_path]
      else printStep args exported [] []

/-- The collapsed external OCR call of a run. -/
def ocrStep (args : Args) (env : Env) : Except String JValue :=
  env.ocr args.detArch args.recoArch (resolve_input_path env.cwd args.imagePath)

/-- Claim-side description of "some step inside the try block raised": the
OCR call, or the JSON output write when requested, or the text extraction
when printing is enabled. -/
def tryFails (args : Args) (env : Env) : Bool :=
  match ocrStep args env with
  | .error _ => true
  | .ok exported =>
    match (if args.jsonOut != "" then
        env.writeJson (resolve_input_path env.cwd args.jsonOut) exported
      else .ok ()) with
    | .error _ => true
    | .ok _ =>
      if !args.noText then
        match extract_text_from_doctr_export exported with
        | .error _ => true
        | .ok _ => false
      else false

/-- An environment whose filesystem checks pass, whose OCR succeeds with an
empty export, and whose JSON write raises. -/
def envWriteFail : Env :=
  ⟨⟨.abs, []⟩, fun _ => true, fun _ => true,
    fun _ _ _ => .ok (.obj [("pages", .arr [])]),
    fun _ _ => .error "Permission denied: out.json"⟩

/-- Arguments requesting a JSON output file. -/
def argsJson : Args :=
  ⟨"img.png", "out.json", "db_resnet50", "crnn_vgg16_bn", false⟩

/-- Arguments with every option left at its default. -/
def argsPlain : Args :=
  ⟨"img.png", "", "db_resnet50", "crnn_vgg16_bn", false⟩

/-- An environment where the resolved input path does not exist. -/
def envMissing : Env :=
  ⟨⟨.abs, ["home"]⟩, fun _ => false, fun _ => false,
    fun _ _ _ => .error "unreachable", fun _ _ => .ok ()⟩

/-- An environment whose filesystem checks pass and whose OCR raises. -/
def envOcrFail : Env :=
  ⟨⟨.abs, ["home"]⟩, fun _ => true, fun _ => true,
    fun _ _ _ => .error "weights not found", fun _ _ => .ok ()⟩

/-! ## JSON serialization (Python `json`, an external collaborator)

`dumps` models `json.dump(exported, f, ensure_ascii=False, indent=2)`:
human-readable two-space indentation, non-ASCII characters kept unescaped,
only the backslash, the double quote and C0 control characters escaped
(short escapes for the usual five, `\u00xx` otherwise).  `loads` models
`json.load`: skip whitespace, parse one JSON value, require the input to
be exhausted; duplicate object keys keep the first position and the last
value, as CPython's dict building does.  Lone-surrogate `\uXXXX` escapes —
which the serializer never produces — are rejected rather than decoded. -/

/-- Lowercase hexadecimal digit for `n < 16`. -/
def hexDigitChar (n : Nat) : Char :=
  if n < 10 then Char.ofNat (48 + n) else Char.ofNat (87 + n)

/-- JSON escape of one character (`ensure_ascii=False`). -/
def encodeChar (c : Char) : List Char :=
  if c = '"' then ['\\', '"']
  else if c = '\\' then ['\\', '\\']
  else if c = '\n' then ['\\', 'n']
  else if c = '\t' then ['\\', 't']
  else if c = '\r' then ['\\', 'r']
  else if c = '\x08' then ['\\', 'b']
  else if c = '\x0c' then ['\\', 'f']
  else if c.toNat < 32 then
    ['\\', 'u', '0', '0', hexDigitChar (c.toNat / 16), hexDigitChar (c.toNat % 16)]
  else [c]

/-- JSON rendering of a string: quoted, characters escaped. -/
def encodeStr (s : String) : List Char :=
  '"' :: s.data.flatMap encodeChar ++ ['"']

/-- A newline followed by the two-space indentation of level `k`. -/
def nlIndent (k : Nat) : List Char :=
  '\n' :: List.replicate (2 * k) ' '

mutual

/-- Characters of the JSON rendering of a value at indentation level `k`
(as `json.dump` with `indent=2` emits them). -/
def render : Nat → JValue → List Char
  | _, .null => "null".data
  | _, .bool true => "true".data
  | _, .bool false => "false".data
  | _, .num lit => lit.data
  | _, .str s => encodeStr s
  | _, .arr [] => ['[', ']']
  | k, .arr (x :: xs) =>
    '[' :: (nlIndent (k + 1) ++ render (k + 1) x ++ renderItems (k + 1) xs) ++
      nlIndent k ++ [']']
  | _, .obj [] => ['\x7b', '\x7d']
  | k, .obj ((key, v) :: fs) =>
    '\x7b' :: (nlIndent (k + 1) ++ (encodeStr key ++ ':' :: ' ' ::
      render (k + 1) v) ++ renderFields (k + 1) fs) ++ nlIndent k ++ ['\x7d']
termination_by structural _ v => v

/-- The remaining array items, each preceded by the item separator `,` and
a fresh indented line. -/
def renderItems : Nat → List JValue → List Char
  | _, [] => []
  | k, x :: xs => ',' :: nlIndent k ++ render k x ++ renderItems k xs
termination_by structural _ xs => xs

/-- The remaining object members, each preceded by `,` and a fresh
indented line; a member is the encoded key, the key separator `: `, then
the value. -/
def renderFields : Nat → List (String × JValue) → List Char
  | _, [] => []
  | k, (key, v) :: fs =>
    ',' :: nlIndent k ++ (encodeStr key ++ ':' :: ' ' :: render k v) ++
      renderFields k fs
termination_by structural _ fs => fs

end

/-- One rendered object member: encoded key, the key separator `: `, the
value. -/
def renderField (k : Nat) (key : String) (v : JValue) : List Char :=
  encodeStr key ++ ':' :: ' ' :: render k v

/-- `json.dump(v, f, ensure_ascii=False, indent=2)` as a string. -/
def dumps (v : JValue) : String :=
  String.mk (render 0 v)

/-- JSON whitespace. -/
def jsonWs (c : Char) : Bool :=
  c == ' ' || c == '\t' || c == '\n' || c == '\r'

/-- Drop leading JSON whitespace. -/
def skipWs : List Char → List Char
  | [] => []
  | c :: cs => if jsonWs c then skipWs cs else c :: cs

/-- Decoding of a short escape character. -/
def escChar (e : Char) : Option Char :=
  if e = '"' then some '"'
  else if e = '\\' then some '\\'
  else if e = '/' then some '/'
  else if e = 'b' then some '\x08'
  else if e = 'f' then some '\x0c'
  else if e = 'n' then some '\n'
  else if e = 'r' then some '\r'
  else if e = 't' then some '\t'
  else none

/-- Value of a hexadecimal digit. -/
def hexVal (c : Char) : Option Nat :=
  if '0' ≤ c ∧ c ≤ '9' then some (c.toNat - 48)
  else if 'a' ≤ c ∧ c ≤ 'f' then some (c.toNat - 87)
  else if 'A' ≤ c ∧ c ≤ 'F' then some (c.toNat - 55)
  else none

mutual

/-- Body of a JSON string after the opening quote: the decoded characters
and the input after the closing quote.  Raw control characters are
rejected (strict mode). -/
def parseStrBody : List Char → Option (List Char × List Char)
  | [] => none
  | c :: cs =>
    if c = '"' then some ([], cs)
    else if c = '\\' then parseEsc cs
    else if c.toNat < 32 then none
    else
      match parseStrBody cs with
      | some (body, rest) => some (c :: body, rest)
      | none => none
termination_by structural cs => cs

/-- Continuation after a backslash: a short escape or a `\uXXXX` escape. -/
def parseEsc : List Char → Option (List Char × List Char)
  | [] => none
  | e :: cs2 =>
    if e = 'u' then parseHex4 cs2
    else
      match escChar e with
      | some c2 =>
        match parseStrBody cs2 with
        | some (body, rest) => some (c2 :: body, rest)
        | none => none
      | none => none
termination_by structural cs => cs

/-- Continuation after `\u`: four hex digits naming a scalar value
(surrogate escapes — which the serializer never produces — are
rejected). -/
def parseHex4 : List Char → Option (List Char × List Char)
  | h1 :: h2 :: h3 :: h4 :: cs3 =>
    match hexVal h1, hexVal h2, hexVal h3, hexVal h4 with
    | some a, some b, some a2, some b2 =>
      let n := ((a * 16 + b) * 16 + a2) * 16 + b2
      if n < 0xd800 then
        match parseStrBody cs3 with
        | some (body, rest) => some (Char.ofNat n :: body, rest)
        | none => none
      else none
    | _, _, _, _ => none
  | _ => none
termination_by structural cs => cs

end

/-- Consume an expected literal continuation (e.g. `ull` after `n`). -/
def stripLead : List Char → List Char → Option (List Char)
  | [], cs => some cs
  | _ :: _, [] => none
  | p :: ps, c :: cs => if c = p then stripLead ps cs else none

/-- Characters that may occur in a JSON number token. -/
def numChar (c : Char) : Bool :=
  c.isDigit || c == '-' || c == '+' || c == '.' || c == 'e' || c == 'E'

/-- Exponent digits: an optional sign then one or more digits, nothing
after. -/
def expDigits (l : List Char) : Bool :=
  let l2 := match l with
    | c :: t => if c = '+' ∨ c = '-' then t else l
    | [] => l
  !(l2.takeWhile Char.isDigit).isEmpty && (l2.dropWhile Char.isDigit).isEmpty

/-- Exponent part of a number token (possibly empty). -/
def expOk : List Char → Bool
  | [] => true
  | c :: rest => if c = 'e' ∨ c = 'E' then expDigits rest else false

/-- Fraction-then-exponent part of a number token (possibly empty). -/
def fracExpOk : List Char → Bool
  | [] => true
  | c :: rest =>
    if c = '.' then
      !(rest.takeWhile Char.isDigit).isEmpty && expOk (rest.dropWhile Char.isDigit)
    else expOk (c :: rest)

/-- Integer part of a number token: `0`, or a nonzero digit followed by
digits, then the fraction/exponent parts. -/
def intPart : List Char → Bool
  | [] => false
  | c :: rest =>
    if c = '0' then fracExpOk rest
    else c.isDigit && fracExpOk (rest.dropWhile Char.isDigit)

/-- The JSON number grammar (`json.scanner`'s NUMBER_RE). -/
def isNumLit (l : List Char) : Bool :=
  match l with
  | [] => false
  | c :: rest => if c = '-' then intPart rest else intPart (c :: rest)

/-- Insert a member as CPython's dict building does: an existing key keeps
its position and takes the new value, a new key is appended. -/
def objInsert : List (String × JValue) → String → JValue → List (String × JValue)
  | [], k, v => [(k, v)]
  | (k2, v2) :: rest, k, v =>
    if k2 = k then (k2, v) :: rest else (k2, v2) :: objInsert rest k v

mutual

/-- Parse one JSON value at the head of the input (fuel-indexed). -/
def parseVal : Nat → List Char → Option (JValue × List Char)
  | 0, _ => none
  | fuel + 1, cs =>
    match cs with
    | [] => none
    | c :: rest =>
      if c = 'n' then
        match stripLead ['u', 'l', 'l'] rest with
        | some rest2 => some (.null, rest2)
        | none => none
      else if c = 't' then
        match stripLead ['r', 'u', 'e'] rest with
        | some rest2 => some (.bool true, rest2)
        | none => none
      else if c = 'f' then
        match stripLead ['a', 'l', 's', 'e'] rest with
        | some rest2 => some (.bool false, rest2)
        | none => none
      else if c = '"' then
        match parseStrBody rest with
        | some (body, rest2) => some (.str (String.mk body), rest2)
        | none => none
      else if c = '[' then
        let cs1 := skipWs rest
        if cs1.head? = some ']' then some (.arr [], cs1.tail)
        else parseItems fuel [] cs1
      else if c = '\x7b' then
        let cs1 := skipWs rest
        if cs1.head? = some '\x7d' then some (.obj [], cs1.tail)
        else parseFields fuel [] cs1
      else if c.isDigit || c = '-' then
        let tok := (c :: rest).takeWhile numChar
        if isNumLit tok then
          some (.num (String.mk tok), (c :: rest).dropWhile numChar)
        else none
      else none

/-- Parse the items of a nonempty array, the accumulated items given. -/
def parseItems : Nat → List JValue → List Char → Option (JValue × List Char)
  | 0, _, _ => none
  | fuel + 1, acc, cs =>
    match parseVal fuel cs with
    | none => none
    | some (v, rest) =>
      match skipWs rest with
      | ',' :: rest2 => parseItems fuel (acc ++ [v]) (skipWs rest2)
      | ']' :: rest2 => some (.arr (acc ++ [v]), rest2)
      | _ => none

/-- Parse the members of a nonempty object, the accumulated members
given. -/
def parseFields : Nat → List (String × JValue) → List Char →
    Option (JValue × List Char)
  | 0, _, _ => none
  | fuel + 1, acc, cs =>
    match cs with
    | '"' :: rest =>
      match parseStrBody rest with
      | none => none
      | some (kbody, rest2) =>
        match skipWs rest2 with
        | ':' :: rest3 =>
          match parseVal fuel (skipWs rest3) with
          | none => none
          | some (v, rest4) =>
            match skipWs rest4 with
            | ',' :: rest5 => parseFields fuel (objInsert acc (String.mk kbody) v) (skipWs rest5)
            | '\x7d' :: rest5 => some (.obj (objInsert acc (String.mk kbody) v), rest5)
            | _ => none
        | _ => none
    | _ => none

end

/-- `json.load`: skip whitespace, parse one value, require the input to be
exhausted.  The fuel is ample for any input (the parsers consume input as
they recurse). -/
def loads (s : String) : Option JValue :=
  match parseVal (s.length + 1) (skipWs s.data) with
  | some (v, rest) => if skipWs rest = [] then some v else none
  | none => none

/-- Distinctness of the keys of an object. -/
def nodupKeysB : List (String × JValue) → Bool
  | [] => true
  | (k, _) :: rest => !((rest.map Prod.fst).contains k) && nodupKeysB rest

mutual

/-- JSON-serializable values: number tokens are well-formed and object
keys are distinct (Python dicts guarantee both for an export). -/
def jsonWF : JValue → Bool
  | .null => true
  | .bool _ => true
  | .num lit => isNumLit lit.data
  | .str _ => true
  | .arr xs => jsonWFList xs
  | .obj fs => nodupKeysB fs && jsonWFFields fs

/-- All elements serializable. -/
def jsonWFList : List JValue → Bool
  | [] => true
  | x :: xs => jsonWF x && jsonWFList xs

/-- All member values serializable. -/
def jsonWFFields : List (String × JValue) → Bool
  | [] => true
  | (_, v) :: fs => jsonWF v && jsonWFFields fs

end

mutual

/-- Fuel sufficient to parse the rendering of a value. -/
def jfuel : JValue → Nat
  | .arr xs => jfuelList xs + 2
  | .obj fs => jfuelFields fs + 2
  | _ => 1

/-- Fuel for the items of an array. -/
def jfuelList : List JValue → Nat
  | [] => 0
  | x :: xs => jfuel x + jfuelList xs + 1

/-- Fuel for the members of an object. -/
def jfuelFields : List (String × JValue) → Nat
  | [] => 0
  | (_, v) :: fs => jfuel v + jfuelFields fs + 1

end

/-! ### Continuation views of the parsing loops

Definitional reformulations of the bodies of `parseItems` and
`parseFields`, used to step through the parse of a rendered document. -/

/-- Dispatch after an array item on the next significant character. -/
def itemsArm (g : Nat) (acc : List JValue) (l : List Char) :
    Option (JValue × List Char) :=
  match l with
  | ',' :: rest2 => parseItems g acc (skipWs rest2)
  | ']' :: rest2 => some (.arr acc, rest2)
  | _ => none

/-- Continuation of `parseItems` after parsing one item. -/
def itemsCont (g : Nat) (acc : List JValue) :
    Option (JValue × List Char) → Option (JValue × List Char)
  | none => none
  | some (v, rest) => itemsArm g (acc ++ [v]) (skipWs rest)

/-- Dispatch after an object member on the next significant character. -/
def fieldsArm (g : Nat) (acc : List (String × JValue)) (l : List Char) :
    Option (JValue × List Char) :=
  match l with
  | ',' :: rest5 => parseFields g acc (skipWs rest5)
  | '\x7d' :: rest5 => some (.obj acc, rest5)
  | _ => none

/-- Continuation of `parseFields` after parsing a member's value. -/
def fieldsCont2 (g : Nat) (acc : List (String × JValue)) (kbody : List Char) :
    Option (JValue × List Char) → Option (JValue × List Char)
  | none => none
  | some (v, rest4) => fieldsArm g (objInsert acc (String.mk kbody) v) (skipWs rest4)

/-- Continuation of `parseFields` after parsing a member's key. -/
def fieldsCont1 (g : Nat) (acc : List (String × JValue)) (kbody : List Char)
    (l : List Char) : Option (JValue × List Char) :=
  match l with
  | ':' :: rest3 => fieldsCont2 g acc kbody (parseVal g (skipWs rest3))
  | _ => none

/-- Continuation of `parseFields` after the opening quote of a key. -/
def fieldsCont0 (g : Nat) (acc : List (String × JValue)) :
    Option (List Char × List Char) → Option (JValue × List Char)
  | none => none
  | some (kbody, rest2) => fieldsCont1 g acc kbody (skipWs rest2)
/-! ### Path lemmas -/

theorem foldl_normStep_eq_filter (xs : List String) :
    ∀ acc, xs.foldl normStep acc = (xs.filter keepSeg).foldl resolveStep acc := by
  induction xs with
  | nil => intro acc; rfl
  | cons x xs ih =>
    intro acc
    by_cases hx : x = "" ∨ x = "."
    · have hk : keepSeg x = false := by
        rcases hx with h | h <;> simp [keepSeg, h]
      simp [List.foldl, List.filter, hk, normStep, hx, ih]
    · have hk : keepSeg x = true := by
        push_neg at hx
        simp [keepSeg, hx.1, hx.2]
      by_cases hdd : x = ".."
      · simp [List.foldl, List.filter, hk, normStep, hx, hdd, resolveStep, ih]
      · simp [List.foldl, List.filter, hk, normStep, hx, hdd, resolveStep, ih]

theorem foldl_resolveStep_plain (xs : List String)
    (h : ∀ s ∈ xs, s ≠ "..") : ∀ acc, xs.foldl resolveStep acc = acc ++ xs := by
  induction xs with
  | nil => intro acc; simp
  | cons x xs ih =>
    intro acc
    have hx : x ≠ ".." := h x (by simp)
    have hrest : ∀ s ∈ xs, s ≠ ".." := fun s hs => h s (by simp [hs])
    simp [List.foldl, resolveStep, hx, ih hrest]

theorem resolveSegs_plain (xs : List String) (h : ∀ s ∈ xs, s ≠ "..") :
    resolveSegs xs = xs := by
  simpa using foldl_resolveStep_plain xs h []

theorem filter_keepSeg_plain (xs : List String)
    (h : ∀ s ∈ xs, s ≠ "" ∧ s ≠ ".") : xs.filter keepSeg = xs := by
  apply List.filter_eq_self.mpr
  intro s hs
  have := h s hs
  simp [keepSeg, this.1, this.2]

/-! ### Path claims -/

/-- C2 counterexample: for the absolute input `"/a/../b"` the code returns
the path unchanged (`..` kept), while the claim's normalization collapses
`..`, giving `"/b"`; the two disagree. -/
theorem C2_counterexample :
    resolve_input_path ⟨.abs, ["w"]⟩ "/a/../b" ≠ normalizeSpec "/a/../b" ∧
    ppStr (resolve_input_path ⟨.abs, ["w"]⟩ "/a/../b") = "/a/../b" ∧
    ppStr (normalizeSpec "/a/../b") = "/b" := by
  refine ⟨by decide, by decide, by decide⟩

/-- C2 (amended): for every input string denoting an absolute path,
`resolve_input_path` returns the `pathlib`-parsed path itself — redundant
separators and `.` segments collapsed by parsing, `..` segments kept. -/
theorem C2_resolve_absolute (cwd : PPath) (s : String)
    (h : isAbsolute (pathOfString s) = true) :
    resolve_input_path cwd s = pathOfString s := by
  simp [resolve_input_path, h]

/-- C2 witness: the amended theorem at the concrete absolute input
`"/a//./b"`. -/
theorem C2_witness :
    isAbsolute (pathOfString "/a//./b") = true ∧
    resolve_input_path ⟨.abs, []⟩ "/a//./b" = pathOfString "/a//./b" :=
  ⟨by decide, C2_resolve_absolute ⟨.abs, []⟩ "/a//./b" (by decide)⟩

/-- C3: for every relative input string `s` and working directory `cwd`
(absolute with plain segments, as `Path.cwd()` guarantees),
`resolve_input_path cwd s` equals the spec-side normalization of
`cwd / s` — `.`/`..` segments and redundant separators collapsed. -/
theorem C3_resolve_relative (cwd : PPath) (s : String)
    (hcwd : wfCwd cwd) (hrel : isAbsolute (pathOfString s) = false) :
    resolve_input_path cwd s = normalizeJoinSpec cwd s := by
  obtain ⟨hroot, hsegs⟩ := hcwd
  have hfil : cwd.segs.filter keepSeg = cwd.segs :=
    filter_keepSeg_plain _ (fun t ht => ⟨(hsegs t ht).1, (hsegs t ht).2.1⟩)
  have hnorm : normalizeSegsSpec (cwd.segs ++ splitSlash s)
      = resolveSegs (cwd.segs ++ parseSegs s) := by
    unfold normalizeSegsSpec resolveSegs parseSegs
    rw [foldl_normStep_eq_filter, List.filter_append, hfil]
  simp [pathOfString, isAbsolute] at hrel
  simp [resolve_input_path, hrel, pathJoin, pathResolve, pathOfString,
    isAbsolute, normalizeJoinSpec, hnorm]

/-- C3 witness: the theorem at `cwd = /home` and the relative input
`"a/../b"`. -/
theorem C3_witness :
    wfCwd ⟨.abs, ["home"]⟩ ∧
    isAbsolute (pathOfString "a/../b") = false ∧
    resolve_input_path ⟨.abs, ["home"]⟩ "a/../b"
      = normalizeJoinSpec ⟨.abs, ["home"]⟩ "a/../b" :=
  ⟨by constructor <;> decide, by decide,
    C3_resolve_relative _ _ ⟨by decide, by decide⟩ (by decide)⟩

/-- C9: the empty string parses as a relative path with no segments, so
`resolve_input_path cwd ""` returns the working directory itself, an
absolute normalized path. -/
theorem C9_resolve_empty (cwd : PPath) (h : wfCwd cwd) :
    resolve_input_path cwd "" = cwd ∧
    isAbsolute (resolve_input_path cwd "") = true := by
  obtain ⟨hroot, hsegs⟩ := h
  have h0 : pathOfString "" = ⟨.rel, []⟩ := by decide
  have hres : resolve_input_path cwd "" = ⟨cwd.root, resolveSegs cwd.segs⟩ := by
    simp [resolve_input_path, h0, pathJoin, isAbsolute, pathResolve]
  have hplain : resolveSegs cwd.segs = cwd.segs :=
    resolveSegs_plain _ (fun t ht => (hsegs t ht).2.2)
  constructor
  · rw [hres, hplain]
  · rw [hres, hplain]
    simp [isAbsolute, hroot]

/-- C9 witness: the theorem at the concrete working directory
`/home/user`. -/
theorem C9_witness :
    wfCwd ⟨.abs, ["home", "user"]⟩ ∧
    resolve_input_path ⟨.abs, ["home", "user"]⟩ "" = ⟨.abs, ["home", "user"]⟩ ∧
    isAbsolute (resolve_input_path ⟨.abs, ["home", "user"]⟩ "") = true := by
  have h : wfCwd ⟨.abs, ["home", "user"]⟩ := ⟨by decide, by decide⟩
  exact ⟨h, (C9_resolve_empty _ h).1, (C9_resolve_empty _ h).2⟩

/-! ### Flattening lemmas -/

theorem ok_bind {α β : Type} (a : α) (f : α → Except String β) :
    (Except.ok a >>= f) = f a := rfl

theorem pure_eq_ok {α : Type} (a : α) : (pure a : Except String α) = .ok a := rfl

theorem strsOfJ_map_str (ss : List String) :
    strsOfJ (ss.map JValue.str) = .ok ss := by
  induction ss with
  | nil => rfl
  | cons s rest ih => simp [strsOfJ, strOfJ, ih, ok_bind, pure_eq_ok]

theorem pyJoin_map_str (sep : String) (ss : List String) :
    pyJoin sep (ss.map JValue.str) = .ok (joinStrs sep ss) := by
  simp [pyJoin, strsOfJ_map_str, ok_bind, pure_eq_ok]

theorem collectWords_wf (ws : List JValue) (h : ws.all wfWord = true) :
    collectWords ws = .ok ((ws.filterMap wordValC1).map JValue.str) := by
  induction ws with
  | nil => rfl
  | cons w rest ih =>
    simp only [List.all_cons, Bool.and_eq_true] at h
    obtain ⟨hw, hrest⟩ := h
    cases w with
    | obj fields =>
      cases hv : lookupField fields "value" with
      | none =>
        simp [collectWords, jget, hv, wordValC1, pyTruthy, ih hrest, ok_bind, pure_eq_ok]
      | some v =>
        cases v with
        | str s =>
          by_cases hs : s = "" <;>
            simp [collectWords, jget, hv, wordValC1, pyTruthy, hs, ih hrest, ok_bind, pure_eq_ok]
        | null => simp [wfWord, hv] at hw
        | bool b => simp [wfWord, hv] at hw
        | num lit => simp [wfWord, hv] at hw
        | arr xs => simp [wfWord, hv] at hw
        | obj gs => simp [wfWord, hv] at hw
    | null => simp [wfWord] at hw
    | bool b => simp [wfWord] at hw
    | num lit => simp [wfWord] at hw
    | str s => simp [wfWord] at hw
    | arr xs => simp [wfWord] at hw

theorem lineEntries_wf (l : JValue) (h : wfLine l = true) :
    lineEntries l = .ok (lineC1 l) := by
  cases l with
  | obj fields =>
    cases hv : lookupField fields "words" with
    | none =>
      simp [lineEntries, jget, hv, pyIter, collectWords, lineC1, getChildren,
        ok_bind, pure_eq_ok]
    | some v =>
      cases v with
      | arr ws =>
        have hws : ws.all wfWord = true := by
          simpa [wfLine, hv] using h
        by_cases he : ws.filterMap wordValC1 = [] <;>
          simp [lineEntries, jget, hv, pyIter, collectWords_wf ws hws, lineC1,
            getChildren, he, pyJoin_map_str, ok_bind, pure_eq_ok]
      | null => simp [wfLine, hv] at h
      | bool b => simp [wfLine, hv] at h
      | num lit => simp [wfLine, hv] at h
      | str s => simp [wfLine, hv] at h
      | obj gs => simp [wfLine, hv] at h
  | null => simp [wfLine] at h
  | bool b => simp [wfLine] at h
  | num lit => simp [wfLine] at h
  | str s => simp [wfLine] at h
  | arr xs => simp [wfLine] at h

theorem concatEntries_ok (f : JValue → Except String (List String))
    (g : JValue → List String) (xs : List JValue)
    (h : ∀ x ∈ xs, f x = .ok (g x)) :
    concatEntries f xs = .ok (xs.flatMap g) := by
  induction xs with
  | nil => rfl
  | cons x rest ih =>
    have hx := h x (by simp)
    have hrest : ∀ y ∈ rest, f y = .ok (g y) := fun y hy => h y (by simp [hy])
    simp [concatEntries, hx, ih hrest, ok_bind, pure_eq_ok]

theorem blockEntries_wf (b : JValue) (h : wfBlock b = true) :
    blockEntries b = .ok (blockC1 b) := by
  cases b with
  | obj fields =>
    cases hv : lookupField fields "lines" with
    | none =>
      simp [blockEntries, jget, hv, pyIter, concatEntries, blockC1, getChildren,
        ok_bind, pure_eq_ok]
    | some v =>
      cases v with
      | arr ls =>
        have hls : ls.all wfLine = true := by
          simpa [wfBlock, hv] using h
        have : ∀ l ∈ ls, lineEntries l = .ok (lineC1 l) := by
          intro l hl
          exact lineEntries_wf l (by
            have := List.all_eq_true.mp hls l hl
            simpa using this)
        simp [blockEntries, jget, hv, pyIter, concatEntries_ok _ _ _ this,
          blockC1, getChildren, ok_bind, pure_eq_ok]
      | null => simp [wfBlock, hv] at h
      | bool b2 => simp [wfBlock, hv] at h
      | num lit => simp [wfBlock, hv] at h
      | str s => simp [wfBlock, hv] at h
      | obj gs => simp [wfBlock, hv] at h
  | null => simp [wfBlock] at h
  | bool b2 => simp [wfBlock] at h
  | num lit => simp [wfBlock] at h
  | str s => simp [wfBlock] at h
  | arr xs => simp [wfBlock] at h

theorem pageEntries_wf (p : JValue) (h : wfPage p = true) :
    pageEntries p = .ok (pageC1 p) := by
  cases p with
  | obj fields =>
    cases hv : lookupField fields "blocks" with
    | none =>
      simp [pageEntries, jget, hv, pyIter, concatEntries, pageC1, getChildren,
        ok_bind, pure_eq_ok]
    | some v =>
      cases v with
      | arr bs =>
        have hbs : bs.all wfBlock = true := by
          simpa [wfPage, hv] using h
        have : ∀ b ∈ bs, blockEntries b = .ok (blockC1 b) := by
          intro b hb
          exact blockEntries_wf b (by
            have := List.all_eq_true.mp hbs b hb
            simpa using this)
        simp [pageEntries, jget, hv, pyIter, concatEntries_ok _ _ _ this,
          pageC1, getChildren, ok_bind, pure_eq_ok]
      | null => simp [wfPage, hv] at h
      | bool b2 => simp [wfPage, hv] at h
      | num lit => simp [wfPage, hv] at h
      | str s => simp [wfPage, hv] at h
      | obj gs => simp [wfPage, hv] at h
  | null => simp [wfPage] at h
  | bool b2 => simp [wfPage] at h
  | num lit => simp [wfPage] at h
  | str s => simp [wfPage] at h
  | arr xs => simp [wfPage] at h

theorem pagesEntries_wf (ps : List JValue) (h : ps.all wfPage = true) :
    pagesEntries ps = .ok (sepConcat (ps.map pageC1)) := by
  induction ps with
  | nil => rfl
  | cons p rest ih =>
    simp only [List.all_cons, Bool.and_eq_true] at h
    obtain ⟨hp, hrest⟩ := h
    cases rest with
    | nil => simpa [pagesEntries, sepConcat] using pageEntries_wf p hp
    | cons q qs =>
      simp [pagesEntries, pageEntries_wf p hp, ih hrest, sepConcat, ok_bind, pure_eq_ok]

theorem outputLines_wf (v : JValue) (h : wfExport v = true) :
    outputLines v = .ok (sepConcat ((getChildren v "pages").map pageC1)) := by
  cases v with
  | obj fields =>
    cases hv : lookupField fields "pages" with
    | none =>
      simp [outputLines, jget, hv, pyIter, pagesEntries, sepConcat, getChildren,
        ok_bind, pure_eq_ok]
    | some v2 =>
      cases v2 with
      | arr ps =>
        have hps : ps.all wfPage = true := by
          simpa [wfExport, hv] using h
        simp [outputLines, jget, hv, pyIter, pagesEntries_wf ps hps,
          getChildren, ok_bind, pure_eq_ok]
      | null => simp [wfExport, hv] at h
      | bool b2 => simp [wfExport, hv] at h
      | num lit => simp [wfExport, hv] at h
      | str s => simp [wfExport, hv] at h
      | obj gs => simp [wfExport, hv] at h
  | null => simp [wfExport] at h
  | bool b2 => simp [wfExport] at h
  | num lit => simp [wfExport] at h
  | str s => simp [wfExport] at h
  | arr xs => simp [wfExport] at h

theorem flatten_wf_eq (v : JValue) (h : wfExport v = true) :
    extract_text_from_doctr_export v = .ok (flattenSpecC1Sep v) := by
  simp [extract_text_from_doctr_export, outputLines_wf v h, flattenSpecC1Sep,
    ok_bind, pure_eq_ok]

theorem append_ne_empty_left (s t : String) (h : s ≠ "") : s ++ t ≠ "" := by
  intro hc
  have := congrArg String.data hc
  rw [String.data_append] at this
  simp at this
  exact h (by cases s; simp_all)

theorem joinStrs_cons_ne (sep s : String) (rest : List String) (h : s ≠ "") :
    joinStrs sep (s :: rest) ≠ "" := by
  cases rest with
  | nil => simpa [joinStrs] using h
  | cons r t =>
    show s ++ sep ++ joinStrs sep (r :: t) ≠ ""
    exact append_ne_empty_left _ _ (append_ne_empty_left _ _ h)

theorem wordValC1_ne (w : JValue) (s : String) (h : wordValC1 w = some s) :
    s ≠ "" := by
  cases w with
  | obj fields =>
    simp only [wordValC1] at h
    cases hv : lookupField fields "value" with
    | none => rw [hv] at h; simp at h
    | some v =>
      rw [hv] at h
      cases v with
      | str t =>
        by_cases ht : t = ""
        · simp [ht] at h
        · simp [ht] at h; subst h; exact ht
      | null => simp at h
      | bool b => simp at h
      | num lit => simp at h
      | arr xs => simp at h
      | obj gs => simp at h
  | null => simp [wordValC1] at h
  | bool b => simp [wordValC1] at h
  | num lit => simp [wordValC1] at h
  | str t => simp [wordValC1] at h
  | arr xs => simp [wordValC1] at h

theorem lineC1_entries_ne (l : JValue) : ∀ e ∈ lineC1 l, e ≠ "" := by
  intro e he
  unfold lineC1 at he
  by_cases hv : ((getChildren l "words").filterMap wordValC1).isEmpty
  · simp [hv] at he
  · simp only [hv, if_false, List.mem_singleton, Bool.false_eq_true] at he
    subst he
    rcases hl : (getChildren l "words").filterMap wordValC1 with _ | ⟨v, vs⟩
    · rw [hl] at hv; simp at hv
    · have hvmem : v ∈ (getChildren l "words").filterMap wordValC1 := by
        rw [hl]; simp
      obtain ⟨w, _, hw⟩ := List.mem_filterMap.mp hvmem
      exact joinStrs_cons_ne _ _ _ (wordValC1_ne w v hw)

theorem pageC1_entries_ne (p : JValue) : ∀ e ∈ pageC1 p, e ≠ "" := by
  intro e he
  unfold pageC1 at he
  obtain ⟨b, _, hbe⟩ := List.mem_flatMap.mp he
  unfold blockC1 at hbe
  obtain ⟨l, _, hle⟩ := List.mem_flatMap.mp hbe
  exact lineC1_entries_ne l e hle

theorem count_sepConcat (L : List (List String))
    (h : ∀ l ∈ L, ∀ e ∈ l, e ≠ "") :
    (sepConcat L).count "" = L.length - 1 := by
  induction L with
  | nil => rfl
  | cons x rest ih =>
    cases rest with
    | nil =>
      show x.count "" = 0
      exact List.count_eq_zero.mpr (fun hmem => h x (by simp) "" hmem rfl)
    | cons y t =>
      have hx : x.count "" = 0 :=
        List.count_eq_zero.mpr (fun hmem => h x (by simp) "" hmem rfl)
      have hrest : ∀ l ∈ y :: t, ∀ e ∈ l, e ≠ "" :=
        fun l hl => h l (by simp [hl])
      show (x ++ [""] ++ sepConcat (y :: t)).count "" = (y :: t).length
      rw [List.count_append, List.count_append, hx, ih hrest]
      simp
      omega

theorem numPages_eq_len (v : JValue) :
    numPages v = (getChildren v "pages").length := by
  cases v with
  | obj fields =>
    cases hv : lookupField fields "pages" with
    | none => simp [numPages, getChildren, hv]
    | some v2 => cases v2 <;> simp [numPages, getChildren, hv]
  | null => rfl
  | bool b => rfl
  | num lit => rfl
  | str s => rfl
  | arr xs => rfl

/-! ### Flattening claims -/

/-- C1 counterexample: on the two-page export (page one `A`, page two `C`)
the code produces `"A\n\nC"` — the page separator appears — while the
claim's reference definition, which never appends a separator entry,
produces `"A\nC"`. -/
theorem C1_counterexample :
    extract_text_from_doctr_export twoPageExport = .ok "A\n\nC" ∧
    flattenSpecC1 twoPageExport = "A\nC" ∧
    extract_text_from_doctr_export twoPageExport
      ≠ .ok (flattenSpecC1 twoPageExport) := by
  refine ⟨rfl, rfl, ?_⟩
  intro h
  rw [show extract_text_from_doctr_export twoPageExport = .ok "A\n\nC" from rfl,
    show flattenSpecC1 twoPageExport = "A\nC" from rfl] at h
  exact absurd (Except.ok.inj h) (by decide)

/-- C1 (amended): for every well-formed OCR export structure, `flatten`
returns exactly the claim's reference value once the reference also appends
one empty entry to the output sequence after every page except the last
(the separator rule stated elsewhere in the spec). -/
theorem C1_flatten_reference (v : JValue) (h : wfExport v = true) :
    extract_text_from_doctr_export v = .ok (flattenSpecC1Sep v) :=
  flatten_wf_eq v h

/-- C1 witness: the amended reference agreement on the two-page export. -/
theorem C1_witness :
    wfExport twoPageExport = true ∧
    extract_text_from_doctr_export twoPageExport
      = .ok (flattenSpecC1Sep twoPageExport) :=
  ⟨rfl, C1_flatten_reference twoPageExport rfl⟩

/-- C6: on every export structure in which `pages`, `blocks`, `lines`,
`words` or `value` keys may be absent at any level, the flattening function
never raises: it returns a result, absent keys acting as empty collections
and absent or empty word values being skipped. -/
theorem C6_flatten_never_raises (v : JValue) (h : wfExport v = true) :
    ∃ s, extract_text_from_doctr_export v = .ok s :=
  ⟨flattenSpecC1Sep v, flatten_wf_eq v h⟩

/-- C6 witness: the theorem on an export with keys missing at every level
(the result evaluates to `"X"`). -/
theorem C6_witness :
    wfExport sparseExport = true ∧
    (∃ s, extract_text_from_doctr_export sparseExport = .ok s) ∧
    extract_text_from_doctr_export sparseExport = .ok "X" :=
  ⟨rfl, C6_flatten_never_raises sparseExport rfl, rfl⟩

/-- C7: for every well-formed export with `n` pages, the output-lines
sequence built by `flatten` is the per-page entry lists joined with one
empty separator entry after each page but the last, and since genuine text
entries are never empty the sequence holds exactly `n - 1` empty entries. -/
theorem C7_page_separators (v : JValue) (h : wfExport v = true) :
    ∃ ls, outputLines v = .ok ls ∧
      ls = sepConcat ((getChildren v "pages").map pageC1) ∧
      ls.count "" = numPages v - 1 := by
  refine ⟨sepConcat ((getChildren v "pages").map pageC1),
    outputLines_wf v h, rfl, ?_⟩
  rw [numPages_eq_len]
  have hne : ∀ l ∈ (getChildren v "pages").map pageC1, ∀ e ∈ l, e ≠ "" := by
    intro l hl e he
    obtain ⟨p, _, hpl⟩ := List.mem_map.mp hl
    exact pageC1_entries_ne p e (hpl ▸ he)
  rw [count_sepConcat _ hne, List.length_map]

/-- C7 witness: the theorem on the two-page export, whose output-lines
sequence is `["A", "", "C"]` with exactly one empty entry. -/
theorem C7_witness :
    wfExport twoPageExport = true ∧
    (∃ ls, outputLines twoPageExport = .ok ls ∧
      ls = sepConcat ((getChildren twoPageExport "pages").map pageC1) ∧
      ls.count "" = numPages twoPageExport - 1) ∧
    outputLines twoPageExport = .ok ["A", "", "C"] :=
  ⟨rfl, C7_page_separators twoPageExport rfl, rfl⟩

/-! ### CLI claims -/

/-- C4: when the resolved input path does not exist, or exists but is not a
regular file, `main` exits with code 2, prints one stderr line ending with
the resolved path, and the OCR pipeline is never entered. -/
theorem C4_invalid_path (args : Args) (env : Env)
    (h : env.pathExists (resolve_input_path env.cwd args.imagePath) = false
       ∨ env.pathIsFile (resolve_input_path env.cwd args.imagePath) = false) :
    (mainRun args env).exitCode = 2 ∧
    (mainRun args env).ocrInvoked = false ∧
    ∃ pre, (mainRun args env).stderr
      = [pre ++ ppStr (resolve_input_path env.cwd args.imagePath)] := by
  by_cases h1 : env.pathExists (resolve_input_path env.cwd args.imagePath) = true
  · have h2 : env.pathIsFile (resolve_input_path env.cwd args.imagePath) = false := by
      rcases h with h | h
      · rw [h1] at h; cases h
      · exact h
    refine ⟨?_, ?_, "ERROR: Not a file: ", ?_⟩ <;>
      simp [mainRun, h1, h2]
  · have h1f : env.pathExists (resolve_input_path env.cwd args.imagePath) = false := by
      revert h1
      cases env.pathExists (resolve_input_path env.cwd args.imagePath) <;> simp
    refine ⟨?_, ?_, "ERROR: File not found: ", ?_⟩ <;>
      simp [mainRun, h1f]

/-- C4 witness: the theorem on a concrete environment where the resolved
input path does not exist. -/
theorem C4_witness :
    (envMissing.pathExists (resolve_input_path envMissing.cwd argsPlain.imagePath) = false
      ∨ envMissing.pathIsFile (resolve_input_path envMissing.cwd argsPlain.imagePath) = false) ∧
    (mainRun argsPlain envMissing).exitCode = 2 ∧
    (mainRun argsPlain envMissing).ocrInvoked = false ∧
    ∃ pre, (mainRun argsPlain envMissing).stderr
      = [pre ++ ppStr (resolve_input_path envMissing.cwd argsPlain.imagePath)] := by
  have h := C4_invalid_path argsPlain envMissing (Or.inl rfl)
  exact ⟨Or.inl rfl, h.1, h.2.1, h.2.2⟩

/-- C5 counterexample: an environment whose path validation passes, whose
OCR call succeeds, but whose JSON output write raises, still exits with
code 1 — so exit code 1 is not exactly the OCR-call-failure case. -/
theorem C5_counterexample :
    (mainRun argsJson envWriteFail).exitCode = 1 ∧
    ocrStep argsJson envWriteFail = .ok (.obj [("pages", .arr [])]) :=
  ⟨rfl, rfl⟩

/-- C5 (amended): after input-path validation succeeds, an exception from
the external OCR call yields exit code 1 with the error message prefixed
`ERROR: OCR failed: ` on stderr; and exit code 1 occurs exactly when some
step inside the try block raises — the OCR call, the JSON output write, or
the text extraction. -/
theorem C5_exit1_iff (args : Args) (env : Env) :
    ((mainRun args env).exitCode = 1 ↔
      (env.pathExists (resolve_input_path env.cwd args.imagePath) = true ∧
       env.pathIsFile (resolve_input_path env.cwd args.imagePath) = true ∧
       tryFails args env = true)) ∧
    (∀ e, env.pathExists (resolve_input_path env.cwd args.imagePath) = true →
      env.pathIsFile (resolve_input_path env.cwd args.imagePath) = true →
      ocrStep args env = .error e →
      (mainRun args env).stderr = ["ERROR: OCR failed: " ++ e]) := by
  by_cases h1 : env.pathExists (resolve_input_path env.cwd args.imagePath) = true
  · by_cases h2 : env.pathIsFile (resolve_input_path env.cwd args.imagePath) = true
    · cases hocr : env.ocr args.detArch args.recoArch
          (resolve_input_path env.cwd args.imagePath) with
      | error e =>
        constructor
        · simp [mainRun, tryFails, ocrStep, h1, h2, hocr]
        · intro e2 _ _ he2
          rw [ocrStep, hocr] at he2
          have : e = e2 := by injection he2
          subst this
          simp [mainRun, h1, h2, hocr]
      | ok exported =>
        have hmsg : ∀ e, ocrStep args env = .error e →
            (mainRun args env).stderr = ["ERROR: OCR failed: " ++ e] := by
          intro e he
          rw [ocrStep, hocr] at he
          cases he
        refine ⟨?_, fun e2 _ _ h => hmsg e2 h⟩
        by_cases hjo : args.jsonOut = ""
        · cases hex : extract_text_from_doctr_export exported <;>
            cases hnt : args.noText <;>
            simp [mainRun, tryFails, ocrStep, printStep, h1, h2, hocr, hjo,
              hnt, hex]
        · cases hw : env.writeJson (resolve_input_path env.cwd args.jsonOut)
              exported with
          | error e =>
            simp [mainRun, tryFails, ocrStep, printStep, h1, h2, hocr, hjo, hw]
          | ok u =>
            cases hex : extract_text_from_doctr_export exported <;>
              cases hnt : args.noText <;>
              simp [mainRun, tryFails, ocrStep, printStep, h1, h2, hocr, hjo,
                hw, hnt, hex]
    · have h2f : env.pathIsFile (resolve_input_path env.cwd args.imagePath) = false := by
        revert h2
        cases env.pathIsFile (resolve_input_path env.cwd args.imagePath) <;> simp
      constructor
      · simp [mainRun, h1, h2f]
      · intro e _ hfile _
        rw [hfile] at h2f
        cases h2f
  · have h1f : env.pathExists (resolve_input_path env.cwd args.imagePath) = false := by
      revert h1
      cases env.pathExists (resolve_input_path env.cwd args.imagePath) <;> simp
    constructor
    · simp [mainRun, h1f]
    · intro e hex _ _
      rw [hex] at h1f
      cases h1f

/-- C5 witness: the amended theorem's message clause on a concrete
environment whose OCR call raises. -/
theorem C5_witness :
    envOcrFail.pathExists (resolve_input_path envOcrFail.cwd argsPlain.imagePath) = true ∧
    envOcrFail.pathIsFile (resolve_input_path envOcrFail.cwd argsPlain.imagePath) = true ∧
    ocrStep argsPlain envOcrFail = .error "weights not found" ∧
    (mainRun argsPlain envOcrFail).stderr = ["ERROR: OCR failed: weights not found"] :=
  ⟨rfl, rfl, rfl,
    (C5_exit1_iff argsPlain envOcrFail).2 "weights not found" rfl rfl rfl⟩

/-- C10: an explicit `--json-out` given the empty string (its default)
behaves exactly as the option not provided: the run result is unchanged,
no directory is created and no JSON file is written. -/
theorem C10_empty_jsonOut (args : Args) (env : Env) (h : args.jsonOut = "") :
    mainRun args env
      = mainRun ⟨args.imagePath, "", args.detArch, args.recoArch, args.noText⟩ env ∧
    (mainRun args env).mkdirCalls = [] ∧
    (mainRun args env).jsonWrites = [] := by
  cases args with
  | mk ip jo da ra nt =>
    cases h
    refine ⟨rfl, ?_⟩
    by_cases h1 : env.pathExists (resolve_input_path env.cwd ip) = true
    · by_cases h2 : env.pathIsFile (resolve_input_path env.cwd ip) = true
      · cases hocr : env.ocr da ra (resolve_input_path env.cwd ip) with
        | error e => simp [mainRun, h1, h2, hocr]
        | ok exported =>
          cases hex : extract_text_from_doctr_export exported with
          | error e =>
            cases nt <;> simp [mainRun, printStep, h1, h2, hocr, hex]
          | ok t =>
            cases nt <;> simp [mainRun, printStep, h1, h2, hocr, hex]
      · have h2f : env.pathIsFile (resolve_input_path env.cwd ip) = false := by
          revert h2
          cases env.pathIsFile (resolve_input_path env.cwd ip) <;> simp
        simp [mainRun, h1, h2f]
    · have h1f : env.pathExists (resolve_input_path env.cwd ip) = false := by
        revert h1
        cases env.pathExists (resolve_input_path env.cwd ip) <;> simp
      simp [mainRun, h1f]

/-- C10 witness: the theorem on concrete default arguments. -/
theorem C10_witness :
    argsPlain.jsonOut = "" ∧
    mainRun argsPlain envOcrFail
      = mainRun ⟨argsPlain.imagePath, "", argsPlain.detArch, argsPlain.recoArch,
          argsPlain.noText⟩ envOcrFail ∧
    (mainRun argsPlain envOcrFail).mkdirCalls = [] ∧
    (mainRun argsPlain envOcrFail).jsonWrites = [] := by
  have h := C10_empty_jsonOut argsPlain envOcrFail rfl
  exact ⟨rfl, h.1, h.2.1, h.2.2⟩

/-! ### JSON round-trip lemmas -/

theorem skipWs_ws_append (a l : List Char) (h : ∀ c ∈ a, jsonWs c = true) :
    skipWs (a ++ l) = skipWs l := by
  induction a with
  | nil => rfl
  | cons c cs ih =>
    have hc := h c (by simp)
    simp only [List.cons_append, skipWs, hc, if_true]
    exact ih (fun d hd => h d (by simp [hd]))

theorem skipWs_cons_neg (c : Char) (l : List Char) (h : jsonWs c = false) :
    skipWs (c :: l) = c :: l := by
  simp [skipWs, h]

theorem nlIndent_ws (k : Nat) : ∀ c ∈ nlIndent k, jsonWs c = true := by
  intro c hc
  simp only [nlIndent, List.mem_cons] at hc
  rcases hc with rfl | hc
  · decide
  · rw [List.eq_of_mem_replicate hc]; decide

theorem skipWs_nlIndent (k : Nat) (l : List Char) :
    skipWs (nlIndent k ++ l) = skipWs l :=
  skipWs_ws_append _ _ (nlIndent_ws k)

theorem length_nlIndent (k : Nat) : (nlIndent k).length = 2 * k + 1 := by
  simp [nlIndent]

theorem takeWhile_all_append (p : Char → Bool) (a l : List Char)
    (ha : ∀ c ∈ a, p c = true)
    (hl : ∀ c, l.head? = some c → p c = false) :
    (a ++ l).takeWhile p = a ∧ (a ++ l).dropWhile p = l := by
  induction a with
  | nil =>
    cases l with
    | nil => simp
    | cons c cs =>
      have := hl c rfl
      simp [List.takeWhile, List.dropWhile, this]
  | cons c cs ih =>
    have hc := ha c (by simp)
    have ih2 := ih (fun d hd => ha d (by simp [hd]))
    simp [List.takeWhile, List.dropWhile, hc, ih2.1, ih2.2]

theorem hexVal_hexDigitChar : ∀ n, n < 16 → hexVal (hexDigitChar n) = some n := by
  decide

theorem parseStrBody_plain (c : Char) (REST body rest : List Char)
    (h1 : c ≠ '"') (h2 : c ≠ '\\') (h8 : ¬ c.toNat < 32)
    (hrec : parseStrBody REST = some (body, rest)) :
    parseStrBody (c :: REST) = some (c :: body, rest) := by
  simp only [parseStrBody]
  rw [if_neg h1, if_neg h2, if_neg h8, hrec]

theorem parseStrBody_encode (l r : List Char) :
    parseStrBody (l.flatMap encodeChar ++ '"' :: r) = some (l, r) := by
  induction l with
  | nil => rfl
  | cons c cs ih =>
    rw [List.flatMap_cons, List.append_assoc]
    by_cases h1 : c = '"'
    · subst h1
      show parseStrBody ('\\' :: '"' :: (cs.flatMap encodeChar ++ '"' :: r)) = _
      rw [show parseStrBody ('\\' :: '"' :: (cs.flatMap encodeChar ++ '"' :: r))
          = (match parseStrBody (cs.flatMap encodeChar ++ '"' :: r) with
             | some (body, rest) => some ('"' :: body, rest)
             | none => none) from rfl, ih]
    by_cases h2 : c = '\\'
    · subst h2
      show parseStrBody ('\\' :: '\\' :: (cs.flatMap encodeChar ++ '"' :: r)) = _
      rw [show parseStrBody ('\\' :: '\\' :: (cs.flatMap encodeChar ++ '"' :: r))
          = (match parseStrBody (cs.flatMap encodeChar ++ '"' :: r) with
             | some (body, rest) => some ('\\' :: body, rest)
             | none => none) from rfl, ih]
    by_cases h3 : c = '\n'
    · subst h3
      show parseStrBody ('\\' :: 'n' :: (cs.flatMap encodeChar ++ '"' :: r)) = _
      rw [show parseStrBody ('\\' :: 'n' :: (cs.flatMap encodeChar ++ '"' :: r))
          = (match parseStrBody (cs.flatMap encodeChar ++ '"' :: r) with
             | some (body, rest) => some ('\n' :: body, rest)
             | none => none) from rfl, ih]
    by_cases h4 : c = '\t'
    · subst h4
      show parseStrBody ('\\' :: 't' :: (cs.flatMap encodeChar ++ '"' :: r)) = _
      rw [show parseStrBody ('\\' :: 't' :: (cs.flatMap encodeChar ++ '"' :: r))
          = (match parseStrBody (cs.flatMap encodeChar ++ '"' :: r) with
             | some (body, rest) => some ('\t' :: body, rest)
             | none => none) from rfl, ih]
    by_cases h5 : c = '\r'
    · subst h5
      show parseStrBody ('\\' :: 'r' :: (cs.flatMap encodeChar ++ '"' :: r)) = _
      rw [show parseStrBody ('\\' :: 'r' :: (cs.flatMap encodeChar ++ '"' :: r))
          = (match parseStrBody (cs.flatMap encodeChar ++ '"' :: r) with
             | some (body, rest) => some ('\r' :: body, rest)
             | none => none) from rfl, ih]
    by_cases h6 : c = '\x08'
    · subst h6
      show parseStrBody ('\\' :: 'b' :: (cs.flatMap encodeChar ++ '"' :: r)) = _
      rw [show parseStrBody ('\\' :: 'b' :: (cs.flatMap encodeChar ++ '"' :: r))
          = (match parseStrBody (cs.flatMap encodeChar ++ '"' :: r) with
             | some (body, rest) => some ('\x08' :: body, rest)
             | none => none) from rfl, ih]
    by_cases h7 : c = '\x0c'
    · subst h7
      show parseStrBody ('\\' :: 'f' :: (cs.flatMap encodeChar ++ '"' :: r)) = _
      rw [show parseStrBody ('\\' :: 'f' :: (cs.flatMap encodeChar ++ '"' :: r))
          = (match parseStrBody (cs.flatMap encodeChar ++ '"' :: r) with
             | some (body, rest) => some ('\x0c' :: body, rest)
             | none => none) from rfl, ih]
    by_cases h8 : c.toNat < 32
    · have hdiv : c.toNat / 16 < 16 := by omega
      have hmod : c.toNat % 16 < 16 := Nat.mod_lt _ (by omega)
      have hv1 := hexVal_hexDigitChar _ hdiv
      have hv2 := hexVal_hexDigitChar _ hmod
      have henc : encodeChar c = ['\\', 'u', '0', '0',
          hexDigitChar (c.toNat / 16), hexDigitChar (c.toNat % 16)] := by
        simp [encodeChar, h1, h2, h3, h4, h5, h6, h7, h8]
      rw [henc]
      show parseStrBody ('\\' :: 'u' :: '0' :: '0' :: hexDigitChar (c.toNat / 16)
        :: hexDigitChar (c.toNat % 16) :: (cs.flatMap encodeChar ++ '"' :: r)) = _
      rw [show parseStrBody ('\\' :: 'u' :: '0' :: '0' :: hexDigitChar (c.toNat / 16)
            :: hexDigitChar (c.toNat % 16) :: (cs.flatMap encodeChar ++ '"' :: r))
          = parseHex4 ('0' :: '0' :: hexDigitChar (c.toNat / 16)
            :: hexDigitChar (c.toNat % 16) :: (cs.flatMap encodeChar ++ '"' :: r)) from rfl]
      simp only [parseHex4]
      rw [show hexVal '0' = some 0 from rfl, hv1, hv2]
      have hn : ((0 * 16 + 0) * 16 + c.toNat / 16) * 16 + c.toNat % 16 = c.toNat := by
        omega
      dsimp only
      rw [hn, if_pos (by omega), ih, Char.ofNat_toNat]
    · have henc : encodeChar c = [c] := by
        simp [encodeChar, h1, h2, h3, h4, h5, h6, h7, h8]
      rw [henc]
      show parseStrBody (c :: (cs.flatMap encodeChar ++ '"' :: r)) = _
      rw [parseStrBody_plain c _ cs r h1 h2 h8 ih]

theorem digit_numChar (c : Char) (h : c.isDigit = true) : numChar c = true := by
  simp [numChar, h]

theorem mem_take_or_drop (p : Char → Bool) (l : List Char) (c : Char)
    (hc : c ∈ l) : c ∈ l.takeWhile p ∨ c ∈ l.dropWhile p := by
  rw [← List.takeWhile_append_dropWhile (p := p) (l := l)] at hc
  exact List.mem_append.mp hc

theorem expDigits_all (l : List Char) (h : expDigits l = true) :
    ∀ c ∈ l, numChar c = true := by
  intro c hc
  cases l with
  | nil => cases hc
  | cons a t =>
    dsimp only [expDigits] at h
    by_cases ha : a = '+' ∨ a = '-'
    · rw [if_pos ha] at h
      rw [Bool.and_eq_true] at h
      obtain ⟨h1, h2⟩ := h
      rcases List.mem_cons.mp hc with rfl | hct
      · rcases ha with rfl | rfl <;> decide
      · rcases mem_take_or_drop Char.isDigit t c hct with hm | hm
        · exact digit_numChar c (List.mem_takeWhile_imp hm)
        · rw [List.isEmpty_iff.mp h2] at hm
          cases hm
    · rw [if_neg ha] at h
      rw [Bool.and_eq_true] at h
      obtain ⟨h1, h2⟩ := h
      rcases mem_take_or_drop Char.isDigit (a :: t) c hc with hm | hm
      · exact digit_numChar c (List.mem_takeWhile_imp hm)
      · rw [List.isEmpty_iff.mp h2] at hm
        cases hm

theorem expOk_all (l : List Char) (h : expOk l = true) :
    ∀ c ∈ l, numChar c = true := by
  intro c hc
  cases l with
  | nil => cases hc
  | cons a t =>
    simp only [expOk] at h
    by_cases ha : a = 'e' ∨ a = 'E'
    · rw [if_pos ha] at h
      rcases List.mem_cons.mp hc with rfl | hct
      · rcases ha with rfl | rfl <;> decide
      · exact expDigits_all t h c hct
    · rw [if_neg ha] at h
      cases h

theorem fracExpOk_all (l : List Char) (h : fracExpOk l = true) :
    ∀ c ∈ l, numChar c = true := by
  intro c hc
  cases l with
  | nil => cases hc
  | cons a t =>
    simp only [fracExpOk] at h
    by_cases ha : a = '.'
    · rw [if_pos ha] at h
      rw [Bool.and_eq_true] at h
      obtain ⟨h1, h2⟩ := h
      rcases List.mem_cons.mp hc with rfl | hct
      · rw [ha]; decide
      · rcases mem_take_or_drop Char.isDigit t c hct with hm | hm
        · exact digit_numChar c (List.mem_takeWhile_imp hm)
        · exact expOk_all _ h2 c hm
    · rw [if_neg ha] at h
      exact expOk_all _ h c hc

theorem intPart_all (l : List Char) (h : intPart l = true) :
    ∀ c ∈ l, numChar c = true := by
  intro c hc
  cases l with
  | nil => cases hc
  | cons a t =>
    simp only [intPart] at h
    by_cases ha : a = '0'
    · rw [if_pos ha] at h
      rcases List.mem_cons.mp hc with rfl | hct
      · rw [ha]; decide
      · exact fracExpOk_all t h c hct
    · rw [if_neg ha] at h
      rw [Bool.and_eq_true] at h
      obtain ⟨h1, h2⟩ := h
      rcases List.mem_cons.mp hc with rfl | hct
      · exact digit_numChar c h1
      · rcases mem_take_or_drop Char.isDigit t c hct with hm | hm
        · exact digit_numChar c (List.mem_takeWhile_imp hm)
        · exact fracExpOk_all _ h2 c hm

theorem isNumLit_all (l : List Char) (h : isNumLit l = true) :
    ∀ c ∈ l, numChar c = true := by
  intro c hc
  cases l with
  | nil => cases hc
  | cons a t =>
    simp only [isNumLit] at h
    by_cases ha : a = '-'
    · rw [if_pos ha] at h
      rcases List.mem_cons.mp hc with rfl | hct
      · rw [ha]; decide
      · exact intPart_all t h c hct
    · rw [if_neg ha] at h
      exact intPart_all _ h c hc

theorem isNumLit_head (l : List Char) (h : isNumLit l = true) :
    ∃ c cs, l = c :: cs ∧ (c.isDigit = true ∨ c = '-') := by
  cases l with
  | nil => simp [isNumLit] at h
  | cons a t =>
    refine ⟨a, t, rfl, ?_⟩
    simp only [isNumLit] at h
    by_cases ha : a = '-'
    · exact Or.inr ha
    · rw [if_neg ha] at h
      simp only [intPart] at h
      by_cases h0 : a = '0'
      · rw [h0]; exact Or.inl (by decide)
      · rw [if_neg h0] at h
        rw [Bool.and_eq_true] at h
        exact Or.inl h.1

theorem not_ws_of_digit (c : Char) (h : c.isDigit = true) : jsonWs c = false := by
  by_contra hc
  rw [Bool.not_eq_false] at hc
  simp only [jsonWs, Bool.or_eq_true, beq_iff_eq] at hc
  rcases hc with ((rfl | rfl) | rfl) | rfl <;> exact absurd h (by decide)

theorem ne_of_digit (c d : Char) (h : c.isDigit = true) (hd : d.isDigit = false) :
    c ≠ d := by
  intro hc
  rw [hc, hd] at h
  cases h

theorem jfuel_pos (E : JValue) : 1 ≤ jfuel E := by
  cases E <;> simp [jfuel]

theorem render_head (k : Nat) (E : JValue) (h : jsonWF E = true) :
    ∃ c cs, render k E = c :: cs ∧ jsonWs c = false ∧ c ≠ ']' ∧ c ≠ '\x7d' := by
  cases E with
  | null => exact ⟨'n', ['u', 'l', 'l'], rfl, by decide, by decide, by decide⟩
  | bool b =>
    cases b with
    | true => exact ⟨'t', ['r', 'u', 'e'], rfl, by decide, by decide, by decide⟩
    | false => exact ⟨'f', ['a', 'l', 's', 'e'], rfl, by decide, by decide, by decide⟩
  | num lit =>
    obtain ⟨c, cs, hl, hc⟩ := isNumLit_head lit.data (by simpa [jsonWF] using h)
    refine ⟨c, cs, ?_, ?_, ?_, ?_⟩
    · simp [render, hl]
    · rcases hc with hc | rfl
      · exact not_ws_of_digit c hc
      · decide
    · rcases hc with hc | rfl
      · exact ne_of_digit c ']' hc (by decide)
      · decide
    · rcases hc with hc | rfl
      · exact ne_of_digit c '\x7d' hc (by decide)
      · decide
  | str s =>
    exact ⟨'"', s.data.flatMap encodeChar ++ ['"'], rfl, by decide, by decide,
      by decide⟩
  | arr items =>
    cases items with
    | nil => exact ⟨'[', [']'], rfl, by decide, by decide, by decide⟩
    | cons x xs =>
      exact ⟨'[', (nlIndent (k + 1) ++ render (k + 1) x ++ renderItems (k + 1) xs)
        ++ nlIndent k ++ [']'], rfl, by decide, by decide, by decide⟩
  | obj fields =>
    cases fields with
    | nil => exact ⟨'\x7b', ['\x7d'], rfl, by decide, by decide, by decide⟩
    | cons kv fs =>
      obtain ⟨key, v⟩ := kv
      exact ⟨'\x7b', (nlIndent (k + 1) ++ (encodeStr key ++ ':' :: ' ' ::
        render (k + 1) v) ++ renderFields (k + 1) fs) ++ nlIndent k ++ ['\x7d'],
        rfl, by decide, by decide, by decide⟩

theorem objInsert_fresh (acc : List (String × JValue)) (k : String) (v : JValue)
    (h : k ∉ acc.map Prod.fst) : objInsert acc k v = acc ++ [(k, v)] := by
  induction acc with
  | nil => rfl
  | cons p rest ih =>
    obtain ⟨k2, v2⟩ := p
    simp only [List.map_cons, List.mem_cons] at h
    push_neg at h
    simp only [objInsert, if_neg (Ne.symm h.1), List.cons_append]
    rw [ih h.2]

theorem nodup_of_nodupKeysB (fs : List (String × JValue))
    (h : nodupKeysB fs = true) : (fs.map Prod.fst).Nodup := by
  induction fs with
  | nil => simp
  | cons p rest ih =>
    obtain ⟨k, v⟩ := p
    simp only [nodupKeysB, Bool.and_eq_true] at h
    simp only [List.map_cons, List.nodup_cons]
    refine ⟨?_, ih h.2⟩
    intro hmem
    have hcon : (rest.map Prod.fst).contains k = true :=
      List.elem_eq_true_of_mem hmem
    rw [hcon] at h
    simpa using h.1

theorem parseVal_quote (g : Nat) (REST : List Char) :
    parseVal (g + 1) ('"' :: REST)
      = (match parseStrBody REST with
         | some (body, rest2) => some (.str (String.mk body), rest2)
         | none => none) := rfl

theorem parseVal_lbrack (g : Nat) (REST : List Char) :
    parseVal (g + 1) ('[' :: REST)
      = (if (skipWs REST).head? = some ']' then some (.arr [], (skipWs REST).tail)
         else parseItems g [] (skipWs REST)) := rfl

theorem parseVal_lbrace (g : Nat) (REST : List Char) :
    parseVal (g + 1) ('\x7b' :: REST)
      = (if (skipWs REST).head? = some '\x7d' then some (.obj [], (skipWs REST).tail)
         else parseFields g [] (skipWs REST)) := rfl

theorem parseItems_succ (g : Nat) (acc : List JValue) (cs : List Char) :
    parseItems (g + 1) acc cs = itemsCont g acc (parseVal g cs) := rfl

theorem itemsCont_some (g : Nat) (acc : List JValue) (v : JValue)
    (rest : List Char) :
    itemsCont g acc (some (v, rest)) = itemsArm g (acc ++ [v]) (skipWs rest) := rfl

theorem itemsArm_comma (g : Nat) (acc : List JValue) (l : List Char) :
    itemsArm g acc (',' :: l) = parseItems g acc (skipWs l) := rfl

theorem itemsArm_rbrack (g : Nat) (acc : List JValue) (l : List Char) :
    itemsArm g acc (']' :: l) = some (.arr acc, l) := rfl

theorem parseFields_quote (g : Nat) (acc : List (String × JValue))
    (rest : List Char) :
    parseFields (g + 1) acc ('"' :: rest)
      = fieldsCont0 g acc (parseStrBody rest) := rfl

theorem fieldsCont0_some (g : Nat) (acc : List (String × JValue))
    (kbody rest2 : List Char) :
    fieldsCont0 g acc (some (kbody, rest2))
      = fieldsCont1 g acc kbody (skipWs rest2) := rfl

theorem fieldsCont1_colon (g : Nat) (acc : List (String × JValue))
    (kbody l : List Char) :
    fieldsCont1 g acc kbody (':' :: l)
      = fieldsCont2 g acc kbody (parseVal g (skipWs l)) := rfl

theorem fieldsCont2_some (g : Nat) (acc : List (String × JValue))
    (kbody : List Char) (v : JValue) (rest4 : List Char) :
    fieldsCont2 g acc kbody (some (v, rest4))
      = fieldsArm g (objInsert acc (String.mk kbody) v) (skipWs rest4) := rfl

theorem fieldsArm_comma (g : Nat) (acc : List (String × JValue)) (l : List Char) :
    fieldsArm g acc (',' :: l) = parseFields g acc (skipWs l) := rfl

theorem fieldsArm_rbrace (g : Nat) (acc : List (String × JValue)) (l : List Char) :
    fieldsArm g acc ('\x7d' :: l) = some (.obj acc, l) := rfl


theorem itemsTail_head (k kp : Nat) (xs : List JValue) (suffix : List Char) :
    ∀ c, (renderItems k xs ++ (nlIndent kp ++ (']' :: suffix))).head? = some c →
      numChar c = false := by
  intro c hc
  cases xs with
  | nil =>
    rw [show renderItems k ([] : List JValue) = [] from rfl] at hc
    simp only [List.nil_append, nlIndent, List.cons_append, List.head?_cons,
      Option.some.injEq] at hc
    subst hc; decide
  | cons y ys =>
    simp only [renderItems, List.cons_append, List.head?_cons,
      Option.some.injEq] at hc
    subst hc; decide

theorem fieldsTail_head (k kp : Nat) (fs : List (String × JValue))
    (suffix : List Char) :
    ∀ c, (renderFields k fs ++ (nlIndent kp ++ ('\x7d' :: suffix))).head? = some c →
      numChar c = false := by
  intro c hc
  cases fs with
  | nil =>
    rw [show renderFields k ([] : List (String × JValue)) = [] from rfl] at hc
    simp only [List.nil_append, nlIndent, List.cons_append, List.head?_cons,
      Option.some.injEq] at hc
    subst hc; decide
  | cons p fs2 =>
    obtain ⟨key, v⟩ := p
    simp only [renderFields, List.cons_append, List.head?_cons,
      Option.some.injEq] at hc
    subst hc; decide

theorem parse_render (fuel : Nat) :
    (∀ E k suffix, jsonWF E = true → jfuel E ≤ fuel →
      (∀ c, suffix.head? = some c → numChar c = false) →
      parseVal fuel (render k E ++ suffix) = some (E, suffix)) ∧
    (∀ x xs acc k kp suffix, jsonWF x = true → jsonWFList xs = true →
      jfuelList (x :: xs) ≤ fuel →
      parseItems fuel acc
        (render k x ++ (renderItems k xs ++ (nlIndent kp ++ (']' :: suffix))))
        = some (.arr (acc ++ x :: xs), suffix)) ∧
    (∀ key v fs acc k kp suffix, jsonWF v = true → jsonWFFields fs = true →
      jfuelFields ((key, v) :: fs) ≤ fuel →
      ((acc ++ (key, v) :: fs).map Prod.fst).Nodup →
      parseFields fuel acc
        (renderField k key v ++ (renderFields k fs ++ (nlIndent kp ++ ('\x7d' :: suffix))))
        = some (.obj (acc ++ (key, v) :: fs), suffix)) := by
  induction fuel using Nat.strong_induction_on with
  | _ fuel ih =>
  refine ⟨?_, ?_, ?_⟩
  · -- values
    intro E k suffix hwf hfl hsuf
    cases fuel with
    | zero => exact absurd hfl (by have := jfuel_pos E; omega)
    | succ g =>
    cases E with
    | null => rfl
    | bool b => cases b <;> rfl
    | num lit =>
      have hnl : isNumLit lit.data = true := by simpa [jsonWF] using hwf
      obtain ⟨c, cs, hl, hc⟩ := isNumLit_head lit.data hnl
      have hall : ∀ d ∈ lit.data, numChar d = true := isNumLit_all _ hnl
      have htd := takeWhile_all_append numChar lit.data suffix hall hsuf
      show parseVal (g + 1) (lit.data ++ suffix) = some (.num lit, suffix)
      have hcons : lit.data ++ suffix = c :: (cs ++ suffix) := by
        rw [hl, List.cons_append]
      rw [hcons]
      have hd1 : c ≠ 'n' := by
        rcases hc with hd | rfl
        exacts [ne_of_digit _ _ hd (by decide), by decide]
      have hd2 : c ≠ 't' := by
        rcases hc with hd | rfl
        exacts [ne_of_digit _ _ hd (by decide), by decide]
      have hd3 : c ≠ 'f' := by
        rcases hc with hd | rfl
        exacts [ne_of_digit _ _ hd (by decide), by decide]
      have hd4 : c ≠ '"' := by
        rcases hc with hd | rfl
        exacts [ne_of_digit _ _ hd (by decide), by decide]
      have hd5 : c ≠ '[' := by
        rcases hc with hd | rfl
        exacts [ne_of_digit _ _ hd (by decide), by decide]
      have hd6 : c ≠ '\x7b' := by
        rcases hc with hd | rfl
        exacts [ne_of_digit _ _ hd (by decide), by decide]
      have hd7 : (c.isDigit || c = '-') = true := by
        rcases hc with hd | rfl
        · simp [hd]
        · simp
      simp only [parseVal]
      rw [if_neg hd1, if_neg hd2, if_neg hd3, if_neg hd4, if_neg hd5,
        if_neg hd6, if_pos hd7, ← hcons, htd.1, htd.2, if_pos hnl]
    | str s =>
      have harg : render k (.str s) ++ suffix
          = '"' :: (s.data.flatMap encodeChar ++ '"' :: suffix) := by
        show ('"' :: s.data.flatMap encodeChar ++ ['"']) ++ suffix = _
        simp [List.append_assoc]
      rw [harg, parseVal_quote, parseStrBody_encode]
    | arr items =>
      cases items with
      | nil => rfl
      | cons x xs =>
        have hwf2 : jsonWF x = true ∧ jsonWFList xs = true := by
          have h0 : jsonWFList (x :: xs) = true := by simpa [jsonWF] using hwf
          simpa [jsonWFList, Bool.and_eq_true] using h0
        obtain ⟨c, cs, hrx, hwsc, hne1, hne2⟩ := render_head (k + 1) x hwf2.1
        have harg : render k (.arr (x :: xs)) ++ suffix
            = '[' :: (nlIndent (k + 1) ++ (render (k + 1) x ++
              (renderItems (k + 1) xs ++ (nlIndent k ++ (']' :: suffix))))) := by
          show ('[' :: (nlIndent (k + 1) ++ render (k + 1) x ++
              renderItems (k + 1) xs) ++ nlIndent k ++ [']']) ++ suffix = _
          simp [List.append_assoc]
        rw [harg, parseVal_lbrack, skipWs_nlIndent]
        have hR : render (k + 1) x ++
            (renderItems (k + 1) xs ++ (nlIndent k ++ (']' :: suffix)))
            = c :: (cs ++ (renderItems (k + 1) xs ++ (nlIndent k ++ (']' :: suffix)))) := by
          rw [hrx, List.cons_append]
        rw [hR, skipWs_cons_neg _ _ hwsc]
        rw [if_neg (by simp [hne1])]
        rw [← List.cons_append, ← hrx]
        have hfb : jfuelList (x :: xs) ≤ g := by
          have h1 : jfuel (.arr (x :: xs)) = jfuelList (x :: xs) + 2 := rfl
          omega
        have hres := (ih g (by omega)).2.1 x xs [] (k + 1) k suffix
          hwf2.1 hwf2.2 hfb
        simpa using hres
    | obj fields =>
      cases fields with
      | nil => rfl
      | cons p fs =>
        obtain ⟨key, v⟩ := p
        have hwf2 : nodupKeysB ((key, v) :: fs) = true ∧
            jsonWF v = true ∧ jsonWFFields fs = true := by
          have h0 : (nodupKeysB ((key, v) :: fs) &&
              jsonWFFields ((key, v) :: fs)) = true := by simpa [jsonWF] using hwf
          rw [Bool.and_eq_true] at h0
          have h2 := h0.2
          simp only [jsonWFFields, Bool.and_eq_true] at h2
          exact ⟨h0.1, h2.1, h2.2⟩
        have harg : render k (.obj ((key, v) :: fs)) ++ suffix
            = '\x7b' :: (nlIndent (k + 1) ++ (renderField (k + 1) key v ++
              (renderFields (k + 1) fs ++ (nlIndent k ++ ('\x7d' :: suffix))))) := by
          show ('\x7b' :: (nlIndent (k + 1) ++ (encodeStr key ++ ':' :: ' ' ::
              render (k + 1) v) ++ renderFields (k + 1) fs) ++ nlIndent k
              ++ ['\x7d']) ++ suffix = _
          simp [renderField, encodeStr, List.append_assoc]
        rw [harg, parseVal_lbrace, skipWs_nlIndent]
        have hR : renderField (k + 1) key v ++
            (renderFields (k + 1) fs ++ (nlIndent k ++ ('\x7d' :: suffix)))
            = '"' :: (key.data.flatMap encodeChar ++ ['"'] ++ ':' :: ' ' ::
              render (k + 1) v ++
              (renderFields (k + 1) fs ++ (nlIndent k ++ ('\x7d' :: suffix)))) := by
          show (('"' :: key.data.flatMap encodeChar ++ ['"']) ++ ':' :: ' ' ::
              render (k + 1) v) ++ _ = _
          simp [List.append_assoc]
        rw [hR, skipWs_cons_neg _ _ (by decide)]
        rw [if_neg (by simp)]
        rw [← hR]
        have hfb : jfuelFields ((key, v) :: fs) ≤ g := by
          have h1 : jfuel (.obj ((key, v) :: fs)) = jfuelFields ((key, v) :: fs) + 2 := rfl
          omega
        have hnodup : (([] ++ (key, v) :: fs).map Prod.fst).Nodup := by
          simpa using nodup_of_nodupKeysB _ hwf2.1
        have hres := (ih g (by omega)).2.2 key v fs [] (k + 1) k suffix hwf2.2.1
          hwf2.2.2 hfb hnodup
        simpa using hres
  · -- array items
    intro x xs acc k kp suffix hwfx hwfxs hfl
    have hflx : jfuelList (x :: xs) = jfuel x + jfuelList xs + 1 := rfl
    cases fuel with
    | zero => exact absurd hfl (by omega)
    | succ g =>
    have hgx : jfuel x ≤ g := by omega
    have hA := (ih g (by omega)).1 x k
      (renderItems k xs ++ (nlIndent kp ++ (']' :: suffix))) hwfx hgx
      (itemsTail_head k kp xs suffix)
    rw [parseItems_succ, hA, itemsCont_some]
    cases xs with
    | nil =>
      rw [show renderItems k ([] : List JValue) = [] from rfl, List.nil_append,
        skipWs_nlIndent, skipWs_cons_neg _ _ (by decide), itemsArm_rbrack]
    | cons y ys =>
      have hwfy : jsonWF y = true ∧ jsonWFList ys = true := by
        simpa [jsonWFList, Bool.and_eq_true] using hwfxs
      have harg : renderItems k (y :: ys) ++ (nlIndent kp ++ (']' :: suffix))
          = ',' :: (nlIndent k ++ (render k y ++
            (renderItems k ys ++ (nlIndent kp ++ (']' :: suffix))))) := by
        show (',' :: nlIndent k ++ render k y ++ renderItems k ys) ++ _ = _
        simp [List.append_assoc]
      rw [harg, skipWs_cons_neg _ _ (by decide), itemsArm_comma, skipWs_nlIndent]
      obtain ⟨c, cs, hry, hwsc, _, _⟩ := render_head k y hwfy.1
      have hR : render k y ++ (renderItems k ys ++ (nlIndent kp ++ (']' :: suffix)))
          = c :: (cs ++ (renderItems k ys ++ (nlIndent kp ++ (']' :: suffix)))) := by
        rw [hry, List.cons_append]
      rw [hR, skipWs_cons_neg _ _ hwsc, ← List.cons_append, ← hry]
      have hfy : jfuelList (y :: ys) ≤ g := by
        have h1 : jfuelList (y :: ys) = jfuel y + jfuelList ys + 1 := rfl
        omega
      have hres := (ih g (by omega)).2.1 y ys (acc ++ [x]) k kp suffix
        hwfy.1 hwfy.2 hfy
      rw [hres]
      simp
  · -- object members
    intro key v fs acc k kp suffix hwfv hwffs hfl hnodup
    have hflv : jfuelFields ((key, v) :: fs) = jfuel v + jfuelFields fs + 1 := rfl
    cases fuel with
    | zero => exact absurd hfl (by omega)
    | succ g =>
    have hgv : jfuel v ≤ g := by omega
    have harg : renderField k key v ++
        (renderFields k fs ++ (nlIndent kp ++ ('\x7d' :: suffix)))
        = '"' :: (key.data.flatMap encodeChar ++ '"' :: (':' :: (' ' ::
          (render k v ++ (renderFields k fs ++ (nlIndent kp ++ ('\x7d' :: suffix))))))) := by
      show (('"' :: key.data.flatMap encodeChar ++ ['"']) ++ ':' :: ' ' ::
          render k v) ++ _ = _
      simp [List.append_assoc]
    rw [harg, parseFields_quote, parseStrBody_encode, fieldsCont0_some,
      skipWs_cons_neg _ _ (by decide), fieldsCont1_colon]
    rw [show skipWs (' ' :: (render k v ++ (renderFields k fs ++
        (nlIndent kp ++ ('\x7d' :: suffix)))))
        = skipWs (render k v ++ (renderFields k fs ++
          (nlIndent kp ++ ('\x7d' :: suffix)))) from rfl]
    obtain ⟨c, cs, hrv, hwsc, _, _⟩ := render_head k v hwfv
    have hR : render k v ++ (renderFields k fs ++ (nlIndent kp ++ ('\x7d' :: suffix)))
        = c :: (cs ++ (renderFields k fs ++ (nlIndent kp ++ ('\x7d' :: suffix)))) := by
      rw [hrv, List.cons_append]
    rw [hR, skipWs_cons_neg _ _ hwsc, ← List.cons_append, ← hrv]
    have hB := (ih g (by omega)).1 v k
      (renderFields k fs ++ (nlIndent kp ++ ('\x7d' :: suffix))) hwfv hgv
      (fieldsTail_head k kp fs suffix)
    rw [hB, fieldsCont2_some]
    have hkey : key ∉ acc.map Prod.fst := by
      rw [List.map_append] at hnodup
      have hdis := List.disjoint_of_nodup_append hnodup
      intro hmem
      exact hdis hmem (by simp)
    have hins : objInsert acc (String.mk key.data) v = acc ++ [(key, v)] := by
      have hmk : String.mk key.data = key := rfl
      rw [hmk]
      exact objInsert_fresh acc key v hkey
    rw [hins]
    cases fs with
    | nil =>
      rw [show renderFields k ([] : List (String × JValue)) = [] from rfl,
        List.nil_append, skipWs_nlIndent, skipWs_cons_neg _ _ (by decide),
        fieldsArm_rbrace]
    | cons p fs2 =>
      obtain ⟨key2, v2⟩ := p
      have hwf2 : jsonWF v2 = true ∧ jsonWFFields fs2 = true := by
        simpa [jsonWFFields, Bool.and_eq_true] using hwffs
      have harg2 : renderFields k ((key2, v2) :: fs2) ++
          (nlIndent kp ++ ('\x7d' :: suffix))
          = ',' :: (nlIndent k ++ (renderField k key2 v2 ++
            (renderFields k fs2 ++ (nlIndent kp ++ ('\x7d' :: suffix))))) := by
        show (',' :: nlIndent k ++ (encodeStr key2 ++ ':' :: ' ' :: render k v2)
            ++ renderFields k fs2) ++ _ = _
        simp [renderField, encodeStr, List.append_assoc]
      rw [harg2, skipWs_cons_neg _ _ (by decide), fieldsArm_comma, skipWs_nlIndent]
      obtain ⟨c2, cs2, hrf, hwsc2, _, _⟩ := render_head k v2 hwf2.1
      have hR2 : renderField k key2 v2 ++
          (renderFields k fs2 ++ (nlIndent kp ++ ('\x7d' :: suffix)))
          = '"' :: ((key2.data.flatMap encodeChar ++ ['"'] ++ ':' :: ' ' ::
            render k v2) ++
            (renderFields k fs2 ++ (nlIndent kp ++ ('\x7d' :: suffix)))) := by
        show (('"' :: key2.data.flatMap encodeChar ++ ['"']) ++ ':' :: ' ' ::
            render k v2) ++ _ = _
        simp [List.append_assoc]
      rw [hR2, skipWs_cons_neg _ _ (by decide), ← hR2]
      have hff : jfuelFields ((key2, v2) :: fs2) ≤ g := by
        have h1 : jfuelFields ((key2, v2) :: fs2) = jfuel v2 + jfuelFields fs2 + 1 := rfl
        omega
      have hnodup2 : (((acc ++ [(key, v)]) ++ (key2, v2) :: fs2).map Prod.fst).Nodup := by
        have he : (acc ++ [(key, v)]) ++ (key2, v2) :: fs2
            = acc ++ (key, v) :: (key2, v2) :: fs2 := by simp
        rw [he]
        exact hnodup
      have hres := (ih g (by omega)).2.2 key2 v2 fs2 (acc ++ [(key, v)]) k kp suffix
        hwf2.1 hwf2.2 hff hnodup2
      rw [hres]
      simp

theorem jfuel_render_bound (n : Nat) :
    (∀ E k, jfuel E ≤ n → jfuel E ≤ (render k E).length + 1) ∧
    (∀ xs k, jfuelList xs ≤ n → jfuelList xs ≤ (renderItems k xs).length) ∧
    (∀ fs k, jfuelFields fs ≤ n → jfuelFields fs ≤ (renderFields k fs).length) := by
  induction n using Nat.strong_induction_on with
  | _ n ih =>
  refine ⟨?_, ?_, ?_⟩
  · intro E k hle
    cases E with
    | null => have h1 : jfuel JValue.null = 1 := rfl; omega
    | bool b => have h1 : jfuel (.bool b) = 1 := rfl; omega
    | num lit => have h1 : jfuel (.num lit) = 1 := rfl; omega
    | str s => have h1 : jfuel (.str s) = 1 := rfl; omega
    | arr items =>
      cases items with
      | nil =>
        have h1 : jfuel (.arr []) = 2 := rfl
        have h2 : (render k (.arr [])).length = 2 := rfl
        omega
      | cons x xs =>
        have e1 : jfuel (.arr (x :: xs)) = jfuel x + jfuelList xs + 3 := rfl
        have hxb := (ih (jfuel x) (by omega)).1 x (k + 1) le_rfl
        have hlb := (ih (jfuelList xs) (by omega)).2.1 xs (k + 1) le_rfl
        rw [e1]
        simp only [render, List.length_cons, List.length_append,
          length_nlIndent, List.length_singleton]
        omega
    | obj fields =>
      cases fields with
      | nil =>
        have h1 : jfuel (.obj []) = 2 := rfl
        have h2 : (render k (.obj [])).length = 2 := rfl
        omega
      | cons p fs =>
        obtain ⟨key, v⟩ := p
        have e1 : jfuel (.obj ((key, v) :: fs)) = jfuel v + jfuelFields fs + 3 := rfl
        have hvb := (ih (jfuel v) (by omega)).1 v (k + 1) le_rfl
        have hfb := (ih (jfuelFields fs) (by omega)).2.2 fs (k + 1) le_rfl
        rw [e1]
        simp only [render, List.length_cons, List.length_append,
          length_nlIndent, List.length_singleton]
        omega
  · intro xs k hle
    cases xs with
    | nil =>
      have h1 : jfuelList [] = 0 := rfl
      omega
    | cons y ys =>
      have e1 : jfuelList (y :: ys) = jfuel y + jfuelList ys + 1 := rfl
      have hyb := (ih (jfuel y) (by omega)).1 y k le_rfl
      have hysb := (ih (jfuelList ys) (by omega)).2.1 ys k le_rfl
      rw [e1]
      simp only [renderItems, List.length_cons, List.length_append,
        length_nlIndent]
      omega
  · intro fs k hle
    cases fs with
    | nil =>
      have h1 : jfuelFields [] = 0 := rfl
      omega
    | cons p fs2 =>
      obtain ⟨key, v⟩ := p
      have e1 : jfuelFields ((key, v) :: fs2) = jfuel v + jfuelFields fs2 + 1 := rfl
      have hvb := (ih (jfuel v) (by omega)).1 v k le_rfl
      have hfb := (ih (jfuelFields fs2) (by omega)).2.2 fs2 k le_rfl
      rw [e1]
      simp only [renderFields, List.length_cons, List.length_append,
        length_nlIndent]
      omega

theorem loads_dumps (E : JValue) (h : jsonWF E = true) :
    loads (dumps E) = some E := by
  obtain ⟨c, cs, hrend, hws, _, _⟩ := render_head 0 E h
  have hlen : jfuel E ≤ (render 0 E).length + 1 :=
    (jfuel_render_bound (jfuel E)).1 E 0 le_rfl
  have hmain := (parse_render ((render 0 E).length + 1)).1 E 0 [] h hlen
    (by intro c2 hc2; cases hc2)
  rw [List.append_nil] at hmain
  have hdata : (String.mk (render 0 E)).data = render 0 E := rfl
  have hlen2 : (String.mk (render 0 E)).length = (render 0 E).length := rfl
  unfold loads dumps
  rw [hdata, hlen2, hrend, skipWs_cons_neg _ _ hws, ← hrend, hmain]
  rfl

/-! ### JSON round-trip claim -/

/-- C8: for every serializable export structure (valid number tokens,
distinct object keys — both guaranteed for a structure produced by
`result.export()`), writing it as JSON (`ensure_ascii=False, indent=2`)
and parsing it back yields a structure on which `flatten` produces the
same text; in fact parsing recovers the structure exactly. -/
theorem C8_json_roundtrip (E : JValue) (h : jsonWF E = true) :
    ∃ E2, loads (dumps E) = some E2 ∧
      extract_text_from_doctr_export E2 = extract_text_from_doctr_export E :=
  ⟨E, loads_dumps E h, rfl⟩

/-- C8 witness: the round trip on the concrete two-page export. -/
theorem C8_witness :
    jsonWF twoPageExport = true ∧
    ∃ E2, loads (dumps twoPageExport) = some E2 ∧
      extract_text_from_doctr_export E2
        = extract_text_from_doctr_export twoPageExport :=
  ⟨rfl, C8_json_roundtrip twoPageExport rfl⟩
